import Mathlib

/-!
# Dictionary loader of jiebago (`dictionary/dictionary.go`)

A shallow embedding of the streaming line parser `loadDictionary` and of the
library routines its loop body calls, followed by theorems about it.

Conventions of the embedding.

* A Go `string` holding valid UTF-8 is the list of its code points (`Str`).
* `bufio.Scanner` is represented by what it delivers: the list of lines that
  `scanner.Text()` returns one after the other, and the value of
  `scanner.Err()` once `Scan` has returned false.
* The goroutine with its two channels is represented by what it sends: the
  list of tokens sent on `tokenCh`, in order, and the value (if any) sent on
  `errCh`.
* A `float64` frequency is represented by the real number it denotes.  Every
  frequency the loop can store is the result of `strconv.ParseFloat` on a run
  of decimal digits, hence a natural number.
* `LoadDictionary` and `dictPath` are stated over the answers of the calls
  they make (`os.Getwd`, `os.Open`, the functions of `path/filepath`), and
  `LoadDictionary` is represented by the error it returns and the invocations
  of the `DictLoader` it makes.
-/

namespace Dictionary

/-- Go strings, read as sequences of Unicode code points. -/
abbrev Str := List Char

/-! ## Library routines -/

/-- The predicate `unicode.IsSpace`: the Latin-1 spaces and the code points
with the `White_Space` property. -/
def isSpace (c : Char) : Bool :=
  let n := c.toNat
  n == 9 || n == 10 || n == 11 || n == 12 || n == 13 || n == 32 ||
  n == 0x85 || n == 0xA0 || n == 0x1680 || (0x2000 ≤ n && n ≤ 0x200A) ||
  n == 0x2028 || n == 0x2029 || n == 0x202F || n == 0x205F || n == 0x3000

/-- The routine `strings.TrimSpace`: leading and trailing white space removed. -/
def TrimSpace (s : Str) : Str :=
  (s.dropWhile isSpace).rdropWhile isSpace

/-- The byte-order-mark `U+FEFF`. -/
def BOM : Char := Char.ofNat 0xFEFF

/-- The ASCII space. -/
def SP : Char := Char.ofNat 32

/-- The call `strings.Replace(s, BOM, "", 1)`, `BOM` being `U+FEFF`: the first occurrence of the
byte-order-mark is deleted. -/
def ReplaceBOM (s : Str) : Str :=
  s.erase BOM

/-- Character class `[0-9]`. -/
def isDigit (c : Char) : Bool :=
  48 ≤ c.toNat && c.toNat ≤ 57

/-- Character class `[a-z]`. -/
def isLower (c : Char) : Bool :=
  97 ≤ c.toNat && c.toNat ≤ 122

/-- Pattern `.` (no `s` flag): any code point but the line feed. -/
def isDot (c : Char) : Bool :=
  c.toNat != 10

/-! ## The pattern `^(.+?)( [0-9]+)?( [a-z]+)?$`

Go's `regexp` returns the match a backtracking engine finds first
(leftmost-first).  The functions below enumerate the engine's choices in the
order it tries them. -/

/-- Greedy `x+` at the head of `s`: every way to match, as (matched, rest),
the longest first. -/
def plusGreedy (p : Char → Bool) : Str → List (Str × Str)
  | [] => []
  | c :: cs =>
    if p c then
      (plusGreedy p cs).map (fun mr => (c :: mr.1, mr.2)) ++ [([c], cs)]
    else []

/-- Greedy optional group `( x+)?` at the head of `s`: every way to match, as
(capture, rest); the group is tried before its absence.  An absent group
captures the empty string, as `FindStringSubmatch` reports it. -/
def optGroup (p : Char → Bool) (s : Str) : List (Str × Str) :=
  (match s with
    | [] => []
    | c :: cs =>
      if c = SP then (plusGreedy p cs).map (fun mr => (c :: mr.1, mr.2)) else [])
  ++ [([], s)]

/-- The tail `( [0-9]+)?( [a-z]+)?$` of the pattern at the head of `s`: the
captures of every successful choice, in the order the engine reaches them. -/
def tailChoices (s : Str) : List (Str × Str) :=
  (optGroup isDigit s).flatMap (fun g2 =>
    (optGroup isLower g2.2).filterMap (fun g3 =>
      if g3.2 = [] then some (g2.1, g3.1) else none))

/-- The tail `( [0-9]+)?( [a-z]+)?$` of the pattern at the head of `s`: the
captures of the first successful choice. -/
def matchTail (s : Str) : Option (Str × Str) :=
  (tailChoices s).head?

/-- The lazy group `(.+?)` once it holds `acc` (non-empty), in front of
`rest`: the remainder of the pattern is tried first, and only when it fails
does the group take one more code point. -/
def matchLazy (acc : Str) : Str → Option (Str × Str × Str)
  | [] => (matchTail []).map (fun t => (acc, t.1, t.2))
  | c :: cs =>
    match matchTail (c :: cs) with
    | some t => some (acc, t.1, t.2)
    | none => if isDot c then matchLazy (acc ++ [c]) cs else none

/-- The call `dict_reg.FindStringSubmatch(s)`: the whole match followed by the
three captures, or the empty slice when the pattern does not match. -/
def dict_reg (s : Str) : List Str :=
  match s with
  | [] => []
  | c :: cs =>
    if isDot c then
      match matchLazy [c] cs with
      | some m => [s, m.1, m.2.1, m.2.2]
      | none => []
    else []

/-! ## `strconv.ParseFloat` on the strings the pattern can capture -/

/-- The two sentinel causes of a `strconv.NumError`. -/
inductive NumErr where
  | ErrSyntax
  | ErrRange
deriving DecidableEq

/-- Value of a run of decimal digits. -/
def digitsValue (s : Str) : Nat :=
  s.foldl (fun n c => 10 * n + (c.toNat - 48)) 0

/-- Round-to-nearest-even of a natural number to a 53-bit significand. -/
def roundFloat64 (n : Nat) : Nat :=
  if n < 2 ^ 53 then n
  else
    let e := Nat.log2 n - 52
    let q := n / 2 ^ e
    let r := n % 2 ^ e
    let half := 2 ^ (e - 1)
    if r < half then q * 2 ^ e
    else if half < r then (q + 1) * 2 ^ e
    else if q % 2 = 0 then q * 2 ^ e
    else (q + 1) * 2 ^ e

/-- The least natural number that `float64` conversion rounds to infinity:
half an ulp above the largest finite value, `2^1024 - 2^970`. -/
def float64Overflow : Nat :=
  2 ^ 1024 - 2 ^ 970

/-- The call `strconv.ParseFloat(s, 64)` for `s` a run of decimal digits, the
only strings the loop passes: the nearest `float64`, or `ErrRange` when the
value is half an ulp or more above the largest finite `float64`.  Any other
string is answered `ErrSyntax` here; the pattern never captures one. -/
def ParseFloat (s : Str) : Except NumErr Nat :=
  if s ≠ [] ∧ s.all isDigit then
    if float64Overflow ≤ digitsValue s then .error .ErrRange
    else .ok (roundFloat64 (digitsValue s))
  else .error .ErrSyntax

/-- The text of a `*strconv.NumError` from `ParseFloat` on `s`; `s` is quoted
as `strconv.Quote` quotes a run of digits. -/
def numErrorText (e : NumErr) (s : Str) : Str :=
  "strconv.ParseFloat: parsing ".toList ++ [Char.ofNat 34] ++ s ++ [Char.ofNat 34] ++
    (match e with
      | .ErrSyntax => ": invalid syntax".toList
      | .ErrRange => ": value out of range".toList)

/-- The call `fmt.Errorf("Error:%v, line(%s)", err, line)`. -/
def lineError (errText line : Str) : Str :=
  "Error:".toList ++ errText ++ ", line(".toList ++ line ++ ")".toList

/-! ## The loader -/

/-- Modelled from the spec: the `Token` type is declared outside
`dictionary.go`; it carries the term, its frequency and its part-of-speech
tag.  The zero value has empty strings and frequency 0. -/
structure Token where
  text : Str
  frequency : Nat
  pos : Str
deriving DecidableEq

/-- The zero value of `Token`, the initial value of `var token Token`. -/
def zeroToken : Token :=
  ⟨[], 0, []⟩

/-- What one iteration of the scanning loop does. -/
inductive Step where
  | skip
  | emit (token : Token)
  | fail (err : Str)
deriving DecidableEq

/-- The body of the `for scanner.Scan()` loop of `loadDictionary`, run on the
shared variable `token` and the line `scanner.Text()` returned. -/
def loopBody (token : Token) (line : Str) : Step :=
  let fields := dict_reg (TrimSpace line)
  if fields.length = 0 then .skip
  else
    let fields := fields.tail
    let token := { token with text := TrimSpace (ReplaceBOM (fields.getD 0 [])) }
    if fields.getD 1 [] ≠ [] then
      match ParseFloat (TrimSpace (fields.getD 1 [])) with
      | .error err =>
        .fail (lineError (numErrorText err (TrimSpace (fields.getD 1 []))) line)
      | .ok v =>
        let token := { token with frequency := v }
        let token :=
          if fields.getD 2 [] ≠ [] then { token with pos := TrimSpace (fields.getD 2 []) }
          else token
        .emit token
    else .emit token

/-- What a run of the producer goroutine sends: the tokens on `tokenCh`, and
the value on `errCh` if there is one. -/
structure Sent where
  tokens : List Token
  err : Option Str
deriving DecidableEq

/-- The scanning loop from the state `token` over the lines still to come;
`scanErr` is what `scanner.Err()` returns after the last line. -/
def scanLoop (scanErr : Option Str) (token : Token) : List Str → Sent
  | [] => ⟨[], scanErr⟩
  | line :: rest =>
    match loopBody token line with
    | .skip => scanLoop scanErr token rest
    | .emit t => ⟨t :: (scanLoop scanErr t rest).tokens, (scanLoop scanErr t rest).err⟩
    | .fail e => ⟨[], some e⟩

/-- The function `loadDictionary`, on the lines the scanner delivers and the
scanner's final error: `var token Token` starts at the zero value. -/
def loadDictionary (lines : List Str) (scanErr : Option Str) : Sent :=
  scanLoop scanErr zeroToken lines

/-- The shared variable `token` after the loop has run over `lines` without
stopping, from the state `token`. -/
def stateAfter (token : Token) : List Str → Token
  | [] => token
  | line :: rest =>
    match loopBody token line with
    | .skip => stateAfter token rest
    | .emit t => stateAfter t rest
    | .fail _ => token

/-! ## Vocabulary of the statements -/

/-- A capture of an optional group `( x+)?`: empty (group absent), or a space
followed by a non-empty run of the class `p`. -/
def IsField (p : Char → Bool) (g : Str) : Prop :=
  g = [] ∨ ∃ m, m ≠ [] ∧ (∀ c ∈ m, p c = true) ∧ g = SP :: m

/-- A natural number that is a finite `float64`: a significand below `2^53`
times a power of two within the exponent range. -/
def IsFloat64 (n : Nat) : Prop :=
  ∃ m e, m < 2 ^ 53 ∧ e ≤ 971 ∧ n = m * 2 ^ e

/-- The slice `fields` after `fields = fields[1:]`, for the line `line`. -/
def fieldsOf (line : Str) : List Str :=
  (dict_reg (TrimSpace line)).tail

/-- The loop skips the line: `len(fields) == 0`. -/
def skipped (line : Str) : Bool :=
  (dict_reg (TrimSpace line)).length = 0

/-- The text the loop stores for a line it does not skip. -/
def textOf (line : Str) : Str :=
  TrimSpace (ReplaceBOM ((fieldsOf line).getD 0 []))

/-- The frequency field of the line fails numeric parsing: the frequency
group took part in the match and `ParseFloat` rejects it. -/
def failsNumeric (line : Str) : Bool :=
  ((fieldsOf line).getD 1 [] != []) &&
    (match ParseFloat (TrimSpace ((fieldsOf line).getD 1 [])) with
      | .error _ => true
      | .ok _ => false)

/-- The value of the shared variable `token` once the tokens `sent` have been
sent: the last of them, or the zero value when none has been sent. -/
def lastToken (sent : List Token) : Token :=
  sent.getLast?.getD zeroToken

/-- A line whose frequency field is out of the `float64` range: "pear ", then
1 followed by 309 zeros (the value `10^309`). -/
def hugeLine : Str :=
  "pear 1".toList ++ List.replicate 309 (Char.ofNat 48)

/-- The text capture of the line, `fields[0]` after `fields = fields[1:]`. -/
def captureOf (line : Str) : Str :=
  (fieldsOf line).getD 0 []

/-- The text capture of the line is a byte-order-mark followed by nothing but
white space. -/
def bomBlank (line : Str) : Bool :=
  match captureOf line with
  | [] => false
  | c :: cs => c == BOM && cs.all isSpace

/-- The value of the digits in the frequency capture of the line (0 when the
frequency group took no part in the match). -/
def freqValue (line : Str) : Nat :=
  digitsValue (TrimSpace ((fieldsOf line).getD 1 []))

/-- A well-formed part-of-speech tag: empty, or a non-empty run of lowercase
ASCII letters that `TrimSpace` leaves as it is (no white space around it). -/
def PosOK (p : Str) : Prop :=
  p = [] ∨ (p ≠ [] ∧ (∀ c ∈ p, isLower c = true) ∧ TrimSpace p = p)

/-- The line has a frequency field: the frequency group took part in the
match. -/
def hasFreq (line : Str) : Bool :=
  (fieldsOf line).getD 1 [] != []

/-- The line has a part-of-speech field: the tag group took part in the
match. -/
def hasPos (line : Str) : Bool :=
  (fieldsOf line).getD 2 [] != []

/-- The frequency the loop stores from the frequency field of the line when
`ParseFloat` accepts it: the `float64` nearest to the value of its digits. -/
def storedFreq (line : Str) : Nat :=
  roundFloat64 (freqValue line)

/-- The tag of the line: its part-of-speech field without the leading space. -/
def tagOfLine (line : Str) : Str :=
  TrimSpace ((fieldsOf line).getD 2 [])

/-- Carry-over as the claim words it: the numeric value of the frequency
field, that is the value of its digits, of the latest of `lines` that has a
frequency field, 0 if there is none. -/
def latestFreq (lines : List Str) : Nat :=
  ((lines.reverse.find? hasFreq).map freqValue).getD 0

/-- A line whose frequency field is not a `float64`: "a 9007199254740993", the
value being `2^53 + 1`. -/
def oddFreqLine : Str :=
  "a 9007199254740993".toList

/-- Carry-over as the claim words it: the tag of the latest of `lines` that
has both a frequency field and a part-of-speech field, empty if there is
none. -/
def latestPos (lines : List Str) : Str :=
  ((lines.reverse.find? (fun l => hasFreq l && hasPos l)).map tagOfLine).getD []

/-- A line with two byte-order-marks in its text: "a", mark, "b", mark,
"c 5". -/
def twoBomLine : Str :=
  Char.ofNat 97 :: BOM :: Char.ofNat 98 :: BOM :: "c 5".toList

/-! ## `path/filepath`, the operating system and the consumer -/

/-- The functions of `path/filepath` that `dictPath` calls.  Their behaviour
depends on the platform, so the loader is stated over any such triple. -/
structure PathLib where
  /-- The function `filepath.IsAbs`. -/
  IsAbs : Str → Bool
  /-- The function `filepath.Clean`. -/
  Clean : Str → Str
  /-- The function `filepath.Join` on two elements. -/
  Join : Str → Str → Str

/-- The function `dictPath`: the path and the error it returns; `getwd` is what
`os.Getwd()` answers if it is called. -/
def dictPath (fp : PathLib) (getwd : Except Str Str) (dictFileName : Str) : Str × Option Str :=
  if fp.IsAbs dictFileName then (dictFileName, none)
  else
    match getwd with
    | .error err => ([], some err)
    | .ok cwd => (fp.Clean (fp.Join cwd dictFileName), none)

/-- What the operating system answers to the calls of `LoadDictionary`. -/
structure Env where
  /-- The answer of `os.Getwd()`. -/
  getwd : Except Str Str
  /-- The answer of `os.Open(path)`: an error, or the file, given by the lines
  the scanner will deliver from it and the scanner's final error. -/
  osOpen : Str → Except Str (List Str × Option Str)

/-- An invocation of the `DictLoader` handed to `LoadDictionary`. -/
inductive Call where
  | Load (stream : List Token)
  | AddToken (token : Token)
deriving DecidableEq

/-- What a call of `LoadDictionary` does: the error it returns and the
invocations of the `DictLoader`, in order. -/
structure Outcome where
  ret : Option Str
  calls : List Call
deriving DecidableEq

/-- The function `LoadDictionary`.  Once the file is open, `dl.Load` is handed
the token channel, that is the stream of tokens the producer offers; the
returned value is what `<-errCh` yields after `Load` has drained the channel. -/
def LoadDictionary (fp : PathLib) (env : Env) (fileName : Str) : Outcome :=
  match dictPath fp env.getwd fileName with
  | (_, some err) => ⟨some err, []⟩
  | (filePath, none) =>
    match env.osOpen filePath with
    | .error err => ⟨some err, []⟩
    | .ok dictFile =>
      ⟨(loadDictionary dictFile.1 dictFile.2).err,
        [.Load (loadDictionary dictFile.1 dictFile.2).tokens]⟩

/-- The path separator of Unix, `/`. -/
def SEP : Char := Char.ofNat 47

/-- The character `.`. -/
def DOT : Char := Char.ofNat 46

/-- Unix `filepath.IsAbs`: the path starts with a separator. -/
def unixIsAbs (path : Str) : Bool :=
  path.head? == some SEP

/-- The backtracking of `Clean` on a `..` element, from `out.w` already
decremented to `w`: down while `w` is above `dotdot` and the character of the
buffer at `w` is not a separator. -/
def backtrackW (buf : Str) (dotdot : Nat) : Nat → Nat
  | 0 => 0
  | w + 1 =>
    if dotdot < w + 1 && buf.getD (w + 1) SEP != SEP then backtrackW buf dotdot w
    else w + 1

/-- The main loop of Unix `filepath.Clean` over what is left of the path, with
the output buffer `out` and the mark `dotdot`; `fuel` bounds the iterations,
each of which consumes at least one character. -/
def cleanLoop (rooted : Bool) : Nat → Str → Str → Nat → Str
  | 0, _, out, _ => out
  | fuel + 1, rest, out, dotdot =>
    match rest with
    | [] => out
    | c :: cs =>
      if c = SEP then cleanLoop rooted fuel cs out dotdot
      else if c = DOT && (cs.isEmpty || cs.head? == some SEP) then
        cleanLoop rooted fuel cs out dotdot
      else if c = DOT && cs.head? == some DOT &&
          (cs.tail.isEmpty || cs.tail.head? == some SEP) then
        if dotdot < out.length then
          cleanLoop rooted fuel cs.tail
            (out.take (backtrackW out dotdot (out.length - 1))) dotdot
        else if !rooted then
          cleanLoop rooted fuel cs.tail
            ((if 0 < out.length then out ++ [SEP] else out) ++ [DOT, DOT])
            ((if 0 < out.length then out ++ [SEP] else out) ++ [DOT, DOT]).length
        else cleanLoop rooted fuel cs.tail out dotdot
      else
        cleanLoop rooted fuel ((c :: cs).dropWhile (fun x => x != SEP))
          ((if (rooted && out.length != 1) || (!rooted && out.length != 0) then out ++ [SEP]
            else out) ++ (c :: cs).takeWhile (fun x => x != SEP))
          dotdot

/-- Unix `filepath.Clean`. -/
def unixClean (path : Str) : Str :=
  match path with
  | [] => [DOT]
  | c :: cs =>
    let out :=
      if c = SEP then cleanLoop true (path.length + 1) cs [SEP] 1
      else cleanLoop false (path.length + 1) path [] 0
    if out.length = 0 then [DOT] else out

/-- Unix `filepath.Join` on two elements: the elements from the first
non-empty one on, joined by the separator and cleaned; the empty string when
both are empty. -/
def unixJoin (a b : Str) : Str :=
  if a ≠ [] then unixClean (a ++ SEP :: b)
  else if b ≠ [] then unixClean b
  else []

/-- The Unix implementation of `path/filepath`. -/
def unixPath : PathLib :=
  ⟨unixIsAbs, unixClean, unixJoin⟩

/-- An environment with no working directory. -/
def envNoCwd : Env :=
  ⟨.error "getwd: no such file or directory".toList, fun _ => .ok ([], none)⟩

/-- An environment in which no file can be opened. -/
def envNoFile : Env :=
  ⟨.ok "/home/u".toList, fun _ => .error "open: no such file or directory".toList⟩

set_option exponentiation.threshold 2048

/-! ## Character classes -/

theorem isSpace_SP : isSpace SP = true := by decide

theorem isSpace_BOM : isSpace BOM = false := by decide

theorem isDot_SP : isDot SP = true := by decide

theorem isDigit_not_space {c : Char} (h : isDigit c = true) : isSpace c = false := by
  simp only [isDigit, Bool.and_eq_true, decide_eq_true_eq] at h
  simp only [isSpace, Bool.or_eq_false_iff, Bool.and_eq_false_iff, beq_eq_false_iff_ne,
    decide_eq_false_iff_not]
  omega

theorem isLower_not_space {c : Char} (h : isLower c = true) : isSpace c = false := by
  simp only [isLower, Bool.and_eq_true, decide_eq_true_eq] at h
  simp only [isSpace, Bool.or_eq_false_iff, Bool.and_eq_false_iff, beq_eq_false_iff_ne,
    decide_eq_false_iff_not]
  omega

theorem isDigit_not_lower {c : Char} (h : isDigit c = true) : isLower c = false := by
  simp only [isDigit, Bool.and_eq_true, decide_eq_true_eq] at h
  simp only [isLower, Bool.and_eq_false_iff, decide_eq_false_iff_not]
  omega

theorem isDigit_ne_SP {c : Char} (h : isDigit c = true) : c ≠ SP := by
  rintro rfl
  exact absurd h (by decide)

theorem isLower_ne_SP {c : Char} (h : isLower c = true) : c ≠ SP := by
  rintro rfl
  exact absurd h (by decide)

theorem isDigit_isDot {c : Char} (h : isDigit c = true) : isDot c = true := by
  simp only [isDigit, Bool.and_eq_true, decide_eq_true_eq] at h
  simp only [isDot, bne_iff_ne, ne_eq]
  omega

theorem isLower_isDot {c : Char} (h : isLower c = true) : isDot c = true := by
  simp only [isLower, Bool.and_eq_true, decide_eq_true_eq] at h
  simp only [isDot, bne_iff_ne, ne_eq]
  omega

theorem not_space_isDot {c : Char} (h : isSpace c = false) : isDot c = true := by
  simp only [isSpace, Bool.or_eq_false_iff, Bool.and_eq_false_iff, beq_eq_false_iff_ne,
    decide_eq_false_iff_not] at h
  simp only [isDot, bne_iff_ne, ne_eq]
  omega

/-! ## `TrimSpace` -/

theorem dropWhile_space_append (ws s : Str) (h : ∀ c ∈ ws, isSpace c = true) :
    (ws ++ s).dropWhile isSpace = s.dropWhile isSpace := by
  induction ws with
  | nil => rfl
  | cons c cs ih =>
    have hc : isSpace c = true := h c (List.mem_cons_self _ _)
    simp only [List.cons_append, List.dropWhile_cons, hc, if_true]
    exact ih (fun d hd => h d (List.mem_cons_of_mem _ hd))

theorem rdropWhile_space_append (s ws : Str) (h : ∀ c ∈ ws, isSpace c = true) :
    (s ++ ws).rdropWhile isSpace = s.rdropWhile isSpace := by
  induction ws using List.reverseRecOn with
  | nil => simp
  | append_singleton cs c ih =>
    have hc : isSpace c = true := h c (by simp)
    rw [← List.append_assoc, List.rdropWhile_concat_pos _ _ _ hc]
    exact ih (fun d hd => h d (by simp [hd]))

theorem dropWhile_space_of_head {s : Str} (h : ∀ c, s.head? = some c → isSpace c = false) :
    s.dropWhile isSpace = s := by
  cases s with
  | nil => rfl
  | cons c cs => simp [List.dropWhile_cons, h c rfl]

theorem rdropWhile_space_of_last {s : Str}
    (h : ∀ c, s.getLast? = some c → isSpace c = false) :
    s.rdropWhile isSpace = s := by
  induction s using List.reverseRecOn with
  | nil => simp
  | append_singleton cs c _ =>
    have hc : isSpace c = false := h c (by simp)
    exact List.rdropWhile_concat_neg _ _ _ (by simp [hc])

theorem TrimSpace_eq_self {s : Str} (h1 : ∀ c, s.head? = some c → isSpace c = false)
    (h2 : ∀ c, s.getLast? = some c → isSpace c = false) : TrimSpace s = s := by
  unfold TrimSpace
  rw [dropWhile_space_of_head h1, rdropWhile_space_of_last h2]

theorem TrimSpace_space_append (ws s : Str) (h : ∀ c ∈ ws, isSpace c = true) :
    TrimSpace (ws ++ s) = TrimSpace s := by
  unfold TrimSpace
  rw [dropWhile_space_append ws s h]

theorem TrimSpace_append_space (s ws : Str) (h : ∀ c ∈ ws, isSpace c = true) :
    TrimSpace (s ++ ws) = TrimSpace s := by
  unfold TrimSpace
  by_cases hs : ∀ c ∈ s, isSpace c = true
  · have h1 : (s ++ ws).dropWhile isSpace = [] := by
      rw [List.dropWhile_eq_nil_iff]
      intro c hc
      rcases List.mem_append.mp hc with hc | hc
      · exact hs c hc
      · exact h c hc
    have h2 : s.dropWhile isSpace = [] := by
      rw [List.dropWhile_eq_nil_iff]
      exact hs
    rw [h1, h2]
  · have h1 : (s ++ ws).dropWhile isSpace = s.dropWhile isSpace ++ ws := by
      clear h
      induction s with
      | nil => exact absurd (fun c hc => absurd hc (List.not_mem_nil c)) hs
      | cons c cs ih =>
        by_cases hc : isSpace c = true
        · simp only [List.cons_append, List.dropWhile_cons, hc, if_true]
          apply ih
          intro hcs
          apply hs
          intro d hd
          rcases List.mem_cons.mp hd with rfl | hd
          · exact hc
          · exact hcs d hd
        · simp [List.dropWhile_cons, hc]
    rw [h1, rdropWhile_space_append _ _ h]

/-- What `TrimSpace` returns does not start with white space. -/
theorem TrimSpace_head (s : Str) (c : Char) (h : (TrimSpace s).head? = some c) :
    isSpace c = false := by
  unfold TrimSpace at h
  have hpre : (s.dropWhile isSpace).rdropWhile isSpace <+: s.dropWhile isSpace :=
    List.rdropWhile_prefix _ _
  obtain ⟨r, hr⟩ := hpre
  cases hd : (s.dropWhile isSpace).rdropWhile isSpace with
  | nil => rw [hd] at h; cases h
  | cons a as =>
    rw [hd] at h hr
    simp only [List.head?_cons, Option.some.injEq] at h
    subst h
    have h0 : (s.dropWhile isSpace).head? = some a := by rw [← hr]; rfl
    have := List.head?_dropWhile_not isSpace s
    rw [h0] at this
    simpa using this

/-! ## The pattern: which captures the engine returns -/

theorem mem_plusGreedy (p : Char → Bool) (s m r : Str) :
    (m, r) ∈ plusGreedy p s ↔ m ≠ [] ∧ (∀ c ∈ m, p c = true) ∧ s = m ++ r := by
  induction s generalizing m with
  | nil =>
    simp only [plusGreedy, List.not_mem_nil, false_iff]
    rintro ⟨h1, -, h3⟩
    cases m with
    | nil => exact h1 rfl
    | cons a as => cases h3
  | cons c cs ih =>
    unfold plusGreedy
    by_cases hc : p c = true
    · simp only [hc, if_true, List.mem_append, List.mem_map, List.mem_singleton, Prod.mk.injEq,
        Prod.exists]
      constructor
      · rintro (⟨a, b, hab, rfl, rfl⟩ | ⟨rfl, rfl⟩)
        · obtain ⟨-, h2, h3⟩ := (ih a).mp hab
          refine ⟨by simp, ?_, by simp [h3]⟩
          intro d hd
          rcases List.mem_cons.mp hd with rfl | hd
          · exact hc
          · exact h2 d hd
        · exact ⟨by simp, by simpa using hc, rfl⟩
      · rintro ⟨h1, h2, h3⟩
        cases m with
        | nil => exact absurd rfl h1
        | cons a as =>
          simp only [List.cons_append, List.cons.injEq] at h3
          obtain ⟨rfl, rfl⟩ := h3
          cases as with
          | nil => right; simp
          | cons b bs =>
            left
            refine ⟨b :: bs, r, (ih (b :: bs)).mpr ⟨by simp, ?_, rfl⟩, rfl, rfl⟩
            intro d hd
            exact h2 d (List.mem_cons_of_mem _ hd)
    · simp only [hc, Bool.false_eq_true, if_false, List.not_mem_nil, false_iff]
      rintro ⟨h1, h2, h3⟩
      cases m with
      | nil => exact h1 rfl
      | cons a as =>
        simp only [List.cons_append, List.cons.injEq] at h3
        obtain ⟨rfl, -⟩ := h3
        exact hc (h2 c (List.mem_cons_self _ _))

theorem mem_optGroup (p : Char → Bool) (s g r : Str) :
    (g, r) ∈ optGroup p s ↔ IsField p g ∧ s = g ++ r := by
  unfold optGroup IsField
  constructor
  · intro h
    rcases List.mem_append.mp h with h | h
    · cases s with
      | nil => cases h
      | cons c cs =>
        by_cases hc : c = SP
        · simp only [hc, if_true, List.mem_map, Prod.mk.injEq, Prod.exists] at h
          obtain ⟨a, b, hab, rfl, rfl⟩ := h
          obtain ⟨h1, h2, h3⟩ := (mem_plusGreedy p cs a b).mp hab
          exact ⟨Or.inr ⟨a, h1, h2, rfl⟩, by simp [hc, h3]⟩
        · simp [hc] at h
    · simp only [List.mem_singleton, Prod.mk.injEq] at h
      obtain ⟨rfl, rfl⟩ := h
      exact ⟨Or.inl rfl, rfl⟩
  · rintro ⟨h | ⟨m, h1, h2, rfl⟩, rfl⟩
    · subst h
      exact List.mem_append_right _ (by simp)
    · apply List.mem_append_left
      simp only [List.cons_append, if_true, List.mem_map, Prod.mk.injEq, Prod.exists]
      exact ⟨m, r, (mem_plusGreedy p _ m r).mpr ⟨h1, h2, rfl⟩, rfl, rfl⟩

/-- A run of the class `p` in front of something that does not continue it is
determined by the whole. -/
theorem run_append_unique (p : Char → Bool) (a b x y : Str)
    (ha : ∀ c ∈ a, p c = true) (hb : ∀ c ∈ b, p c = true)
    (hx : ∀ c, x.head? = some c → p c = false) (hy : ∀ c, y.head? = some c → p c = false)
    (h : a ++ x = b ++ y) : a = b ∧ x = y := by
  induction a generalizing b with
  | nil =>
    cases b with
    | nil => exact ⟨rfl, h⟩
    | cons d ds =>
      simp only [List.nil_append] at h
      subst h
      have := hx d rfl
      rw [hb d (List.mem_cons_self _ _)] at this
      cases this
  | cons c cs ih =>
    cases b with
    | nil =>
      simp only [List.nil_append] at h
      subst h
      have := hy c rfl
      rw [ha c (List.mem_cons_self _ _)] at this
      cases this
    | cons d ds =>
      simp only [List.cons_append, List.cons.injEq] at h
      obtain ⟨rfl, h⟩ := h
      obtain ⟨rfl, rfl⟩ := ih ds (fun e he => ha e (List.mem_cons_of_mem _ he))
        (fun e he => hb e (List.mem_cons_of_mem _ he)) h
      exact ⟨rfl, rfl⟩

theorem IsField.head_not_digit {g : Str} (hg : IsField isLower g) :
    ∀ c, g.head? = some c → isDigit c = false := by
  intro c hc
  rcases hg with rfl | ⟨m, -, -, rfl⟩
  · cases hc
  · simp only [List.head?_cons, Option.some.injEq] at hc
    subst hc
    decide

/-- The two optional groups split a string in at most one way. -/
theorem fields_unique (g2 g3 h2 h3 : Str) (hg2 : IsField isDigit g2)
    (hg3 : IsField isLower g3) (hh2 : IsField isDigit h2) (hh3 : IsField isLower h3)
    (h : g2 ++ g3 = h2 ++ h3) : g2 = h2 ∧ g3 = h3 := by
  have key : ∀ (d : Str) (x y : Str), d ≠ [] → (∀ c ∈ d, isDigit c = true) →
      IsField isLower x → x ≠ SP :: d ++ y := by
    intro d x y hd hdig hx hxy
    rcases hx with rfl | ⟨m, -, hm, rfl⟩
    · cases hxy
    · simp only [List.cons_append, List.cons.injEq, true_and] at hxy
      cases d with
      | nil => exact hd rfl
      | cons a as =>
        have ha : a ∈ m := by rw [hxy]; simp
        have := isDigit_not_lower (hdig a (List.mem_cons_self _ _))
        rw [hm a ha] at this
        cases this
  rcases hg2 with rfl | ⟨d, hd, hdig, rfl⟩
  · rcases hh2 with rfl | ⟨e, he, hedig, rfl⟩
    · exact ⟨rfl, h⟩
    · exact absurd h (key e g3 h3 he hedig hg3)
  · rcases hh2 with rfl | ⟨e, he, hedig, rfl⟩
    · exact absurd h.symm (key d h3 g3 hd hdig hh3)
    · simp only [List.cons_append, List.cons.injEq, true_and] at h
      obtain ⟨rfl, rfl⟩ := run_append_unique isDigit d e g3 h3 hdig hedig
        hg3.head_not_digit hh3.head_not_digit h
      exact ⟨rfl, rfl⟩

theorem mem_tailChoices (s g2 g3 : Str) :
    (g2, g3) ∈ tailChoices s ↔ IsField isDigit g2 ∧ IsField isLower g3 ∧ s = g2 ++ g3 := by
  unfold tailChoices
  simp only [List.mem_flatMap, List.mem_filterMap, Prod.exists]
  constructor
  · rintro ⟨a, r, har, b, r2, hbr, hsome⟩
    by_cases hr2 : r2 = []
    · simp only [hr2, if_true, Option.some.injEq, Prod.mk.injEq] at hsome
      obtain ⟨rfl, rfl⟩ := hsome
      obtain ⟨h1, h2⟩ := (mem_optGroup _ _ _ _).mp har
      obtain ⟨h3, h4⟩ := (mem_optGroup _ _ _ _).mp hbr
      subst hr2
      simp only [List.append_nil] at h4
      exact ⟨h1, h3, by rw [h2, h4]⟩
    · simp [hr2] at hsome
  · rintro ⟨h1, h3, rfl⟩
    exact ⟨g2, g3, (mem_optGroup _ _ _ _).mpr ⟨h1, rfl⟩, g3, [],
      (mem_optGroup _ _ _ _).mpr ⟨h3, by simp⟩, by simp⟩

theorem matchTail_eq_some_iff (s g2 g3 : Str) :
    matchTail s = some (g2, g3) ↔ IsField isDigit g2 ∧ IsField isLower g3 ∧ s = g2 ++ g3 := by
  have hdef : matchTail s = (tailChoices s).head? := rfl
  rw [hdef, ← mem_tailChoices]
  cases hl : tailChoices s with
  | nil => simp
  | cons x xs =>
    simp only [List.head?_cons, Option.some.injEq, List.mem_cons]
    constructor
    · intro h; exact Or.inl h.symm
    · intro h
      have hx : x ∈ tailChoices s := by rw [hl]; exact List.mem_cons_self _ _
      have hy : (g2, g3) ∈ tailChoices s := by rw [hl]; exact List.mem_cons.mpr h
      obtain ⟨a, b⟩ := x
      obtain ⟨ha, hb, hab⟩ := (mem_tailChoices s a b).mp hx
      obtain ⟨hg2, hg3, hg⟩ := (mem_tailChoices s g2 g3).mp hy
      obtain ⟨rfl, rfl⟩ := fields_unique a b g2 g3 ha hb hg2 hg3 (by rw [← hab, ← hg])
      rfl

theorem matchTail_eq_none_iff (s : Str) :
    matchTail s = none ↔
      ∀ g2 g3, IsField isDigit g2 → IsField isLower g3 → s ≠ g2 ++ g3 := by
  constructor
  · intro h g2 g3 h2 h3 hs
    have := (matchTail_eq_some_iff s g2 g3).mpr ⟨h2, h3, hs⟩
    rw [h] at this
    cases this
  · intro h
    cases hm : matchTail s with
    | none => rfl
    | some x =>
      obtain ⟨a, b⟩ := x
      obtain ⟨ha, hb, hab⟩ := (matchTail_eq_some_iff s a b).mp hm
      exact absurd hab (h a b ha hb)

/-- Splitting at the last space is unambiguous. -/
theorem split_last_SP (x y x2 y2 : Str) (hy : SP ∉ y) (hy2 : SP ∉ y2)
    (h : x ++ SP :: y = x2 ++ SP :: y2) : x = x2 ∧ y = y2 := by
  induction x generalizing x2 with
  | nil =>
    cases x2 with
    | nil => simpa using h
    | cons a as =>
      simp only [List.nil_append, List.cons_append, List.cons.injEq] at h
      exact absurd (by rw [h.2]; simp) hy
  | cons c cs ih =>
    cases x2 with
    | nil =>
      simp only [List.nil_append, List.cons_append, List.cons.injEq] at h
      exact absurd (by rw [← h.2]; simp) hy2
    | cons a as =>
      simp only [List.cons_append, List.cons.injEq] at h
      obtain ⟨rfl, rfl⟩ := ih as h.2
      exact ⟨by rw [h.1], rfl⟩

theorem not_mem_SP_of_digits {d : Str} (h : ∀ c ∈ d, isDigit c = true) : SP ∉ d :=
  fun hm => isDigit_ne_SP (h SP hm) rfl

theorem not_mem_SP_of_lower {d : Str} (h : ∀ c ∈ d, isLower c = true) : SP ∉ d :=
  fun hm => isLower_ne_SP (h SP hm) rfl

/-- A string the tail of the pattern matches is empty or starts with a space. -/
theorem matchTail_head {s : Str} {t : Str × Str} (h : matchTail s = some t) :
    s = [] ∨ ∃ r, s = SP :: r := by
  obtain ⟨g2, g3⟩ := t
  obtain ⟨h2, h3, rfl⟩ := (matchTail_eq_some_iff s g2 g3).mp h
  rcases h2 with rfl | ⟨d, -, -, rfl⟩
  · rcases h3 with rfl | ⟨a, -, -, rfl⟩
    · exact Or.inl rfl
    · exact Or.inr ⟨a, rfl⟩
  · exact Or.inr ⟨d ++ g3, rfl⟩

/-- The last space-separated word of a string the tail matches is its last
field: the tag, or the frequency when there is no tag. -/
theorem fields_last (x y g2 g3 : Str) (hg2 : IsField isDigit g2) (hg3 : IsField isLower g3)
    (hy : SP ∉ y) (h : x ++ SP :: y = g2 ++ g3) :
    (x = g2 ∧ g3 = SP :: y) ∨ (x = [] ∧ g2 = SP :: y ∧ g3 = []) := by
  rcases hg3 with rfl | ⟨a, -, ha, rfl⟩
  · rcases hg2 with rfl | ⟨d, -, hd, rfl⟩
    · cases x <;> cases h
    · right
      simp only [List.append_nil] at h
      obtain ⟨rfl, rfl⟩ := split_last_SP x y [] d hy (not_mem_SP_of_digits hd) h
      exact ⟨rfl, rfl, rfl⟩
  · left
    obtain ⟨rfl, rfl⟩ := split_last_SP x y g2 a hy (not_mem_SP_of_lower ha) h
    exact ⟨rfl, rfl⟩

theorem matchTail_nil : matchTail [] = some ([], []) := by
  rw [matchTail_eq_some_iff]
  exact ⟨Or.inl rfl, Or.inl rfl, rfl⟩

theorem matchLazy_of_tail (acc v : Str) (t : Str × Str) (h : matchTail v = some t) :
    matchLazy acc v = some (acc, t.1, t.2) := by
  cases v with
  | nil => simp [matchLazy, h]
  | cons c cs => simp [matchLazy, h]

theorem matchLazy_cons (acc : Str) (c : Char) (cs : Str) :
    matchLazy acc (c :: cs) =
      match matchTail (c :: cs) with
      | some t => some (acc, t.1, t.2)
      | none => if isDot c then matchLazy (acc ++ [c]) cs else none := by
  rw [matchLazy]

/-- The lazy group grows over `u` when the tail fails at every position
inside `u`. -/
theorem matchLazy_skip (u v : Str) (acc : Str) (hdot : ∀ c ∈ u, isDot c = true)
    (hfail : ∀ u1 u2, u = u1 ++ u2 → u2 ≠ [] → matchTail (u2 ++ v) = none) :
    matchLazy acc (u ++ v) = matchLazy (acc ++ u) v := by
  induction u generalizing acc with
  | nil => simp
  | cons c cs ih =>
    have h0 : matchTail (c :: (cs ++ v)) = none := hfail [] (c :: cs) rfl (by simp)
    have hc : isDot c = true := hdot c (List.mem_cons_self _ _)
    rw [List.cons_append, matchLazy_cons, h0]
    simp only [hc, if_true]
    rw [ih (acc ++ [c]) (fun d hd => hdot d (List.mem_cons_of_mem _ hd))]
    · simp
    · intro u1 u2 hu hu2
      exact hfail (c :: u1) u2 (by rw [hu]; rfl) hu2

/-- What the lazy group returns: it has grown over some `u`, the tail matches
what is left. -/
theorem matchLazy_inv (rest acc g1 g2 g3 : Str) (h : matchLazy acc rest = some (g1, g2, g3)) :
    ∃ u v, rest = u ++ v ∧ g1 = acc ++ u ∧ matchTail v = some (g2, g3) := by
  induction rest generalizing acc with
  | nil =>
    simp only [matchLazy, matchTail_nil, Option.map_some', Option.some.injEq,
      Prod.mk.injEq] at h
    obtain ⟨rfl, rfl, rfl⟩ := h
    exact ⟨[], [], rfl, by simp, matchTail_nil⟩
  | cons c cs ih =>
    unfold matchLazy at h
    cases hm : matchTail (c :: cs) with
    | some t =>
      simp only [hm, Option.some.injEq, Prod.mk.injEq] at h
      obtain ⟨rfl, rfl, rfl⟩ := h
      exact ⟨[], c :: cs, rfl, by simp, hm⟩
    | none =>
      simp only [hm] at h
      by_cases hc : isDot c = true
      · simp only [hc, if_true] at h
        obtain ⟨u, v, rfl, rfl, hv⟩ := ih _ h
        exact ⟨c :: u, v, rfl, by simp, hv⟩
      · simp [hc] at h

/-- The lazy group always ends by matching when it meets no line feed. -/
theorem matchLazy_isSome (rest acc : Str) (hdot : ∀ c ∈ rest, isDot c = true) :
    (matchLazy acc rest).isSome = true := by
  induction rest generalizing acc with
  | nil => simp [matchLazy, matchTail_nil]
  | cons c cs ih =>
    unfold matchLazy
    cases hm : matchTail (c :: cs) with
    | some t => simp
    | none =>
      simp only [hdot c (List.mem_cons_self _ _), if_true]
      exact ih _ (fun d hd => hdot d (List.mem_cons_of_mem _ hd))

/-- The captures of `dict_reg` on `t ++ v` when the tail matches `v` and no
earlier position. -/
theorem dict_reg_eq (t v g2 g3 : Str) (ht : t ≠ []) (hdot : ∀ c ∈ t, isDot c = true)
    (hv : matchTail v = some (g2, g3))
    (hmin : ∀ t1 t2, t = t1 ++ t2 → t1 ≠ [] → t2 ≠ [] → matchTail (t2 ++ v) = none) :
    dict_reg (t ++ v) = [t ++ v, t, g2, g3] := by
  cases t with
  | nil => exact absurd rfl ht
  | cons c u =>
    have hc : isDot c = true := hdot c (List.mem_cons_self _ _)
    have hskip : matchLazy [c] (u ++ v) = matchLazy ([c] ++ u) v :=
      matchLazy_skip u v [c] (fun d hd => hdot d (List.mem_cons_of_mem _ hd))
        (fun u1 u2 hu hu2 => hmin (c :: u1) u2 (by rw [hu]; rfl) (by simp) hu2)
    have hres : matchLazy [c] (u ++ v) = some (c :: u, g2, g3) := by
      rw [hskip]
      exact matchLazy_of_tail (c :: u) v (g2, g3) hv
    show dict_reg (c :: (u ++ v)) = _
    simp only [dict_reg, hc, if_true, hres, List.cons_append]

/-- What `dict_reg` returns: nothing, or the string and three captures that
make it up, the first one non-empty. -/
theorem dict_reg_inv (s : Str) :
    dict_reg s = [] ∨ ∃ g1 g2 g3, dict_reg s = [s, g1, g2, g3] ∧ g1 ≠ [] ∧
      s = g1 ++ (g2 ++ g3) ∧ IsField isDigit g2 ∧ IsField isLower g3 ∧ g1.head? = s.head? := by
  cases s with
  | nil => left; rfl
  | cons c cs =>
    unfold dict_reg
    by_cases hc : isDot c = true
    · simp only [hc, if_true]
      cases hm : matchLazy [c] cs with
      | none => left; rfl
      | some m =>
        right
        obtain ⟨g1, g2, g3⟩ := m
        obtain ⟨u, v, rfl, rfl, hv⟩ := matchLazy_inv cs [c] g1 g2 g3 hm
        obtain ⟨h2, h3, rfl⟩ := (matchTail_eq_some_iff v g2 g3).mp hv
        exact ⟨[c] ++ u, g2, g3, rfl, by simp, by simp, h2, h3, rfl⟩
    · left
      simp [hc]

/-- The pattern matches every non-empty string without a line feed. -/
theorem dict_reg_ne_nil (s : Str) (hs : s ≠ []) (hdot : ∀ c ∈ s, isDot c = true) :
    dict_reg s ≠ [] := by
  cases s with
  | nil => exact absurd rfl hs
  | cons c cs =>
    have h := matchLazy_isSome cs [c] (fun d hd => hdot d (List.mem_cons_of_mem _ hd))
    unfold dict_reg
    simp only [hdot c (List.mem_cons_self _ _), if_true]
    cases hm : matchLazy [c] cs with
    | none => rw [hm] at h; cases h
    | some m => simp

/-! ## The loop body, by what the pattern captured -/

theorem TrimSpace_SP_run (m : Str) (h : ∀ c ∈ m, isSpace c = false) :
    TrimSpace (SP :: m) = m := by
  have h1 := TrimSpace_space_append [SP] m (by simp [isSpace_SP])
  simp only [List.singleton_append] at h1
  rw [h1]
  exact TrimSpace_eq_self (fun c hc => h c (List.mem_of_mem_head? hc))
    (fun c hc => h c (List.mem_of_mem_getLast? hc))

theorem loopBody_skip (st : Token) (line : Str) (h : dict_reg (TrimSpace line) = []) :
    loopBody st line = .skip := by
  simp [loopBody, h]

theorem loopBody_no_freq (st : Token) (line s g1 g3 : Str)
    (h : dict_reg (TrimSpace line) = [s, g1, [], g3]) :
    loopBody st line = .emit { st with text := TrimSpace (ReplaceBOM g1) } := by
  simp [loopBody, h]

theorem loopBody_freq (st : Token) (line s g1 d g3 : Str)
    (h : dict_reg (TrimSpace line) = [s, g1, SP :: d, g3])
    (hd : ∀ c ∈ d, isDigit c = true) :
    loopBody st line =
      match ParseFloat d with
      | .error err => .fail (lineError (numErrorText err d) line)
      | .ok v =>
        .emit (if g3 ≠ [] then ⟨TrimSpace (ReplaceBOM g1), v, TrimSpace g3⟩
          else ⟨TrimSpace (ReplaceBOM g1), v, st.pos⟩) := by
  have ht : TrimSpace (SP :: d) = d := TrimSpace_SP_run d (fun c hc => isDigit_not_space (hd c hc))
  simp only [loopBody, h, List.length_cons, List.length_nil, List.tail_cons, List.getD_cons_zero,
    List.getD_cons_succ, ht]
  cases hp : ParseFloat d with
  | error e => simp
  | ok v =>
    by_cases hg : g3 = []
    · simp [hg]
    · simp [hg]

/-! ## `ParseFloat` on digit runs -/

theorem ParseFloat_of_lt (d : Str) (hne : d ≠ []) (hd : ∀ c ∈ d, isDigit c = true)
    (h : digitsValue d < float64Overflow) :
    ParseFloat d = .ok (roundFloat64 (digitsValue d)) := by
  have hall : d.all isDigit = true := List.all_eq_true.mpr hd
  simp [ParseFloat, hne, hall, Nat.not_le.mpr h]

theorem ParseFloat_of_ge (d : Str) (hne : d ≠ []) (hd : ∀ c ∈ d, isDigit c = true)
    (h : float64Overflow ≤ digitsValue d) :
    ParseFloat d = .error .ErrRange := by
  have hall : d.all isDigit = true := List.all_eq_true.mpr hd
  simp [ParseFloat, hne, hall, h]

theorem maxFloat64_lt_overflow : (2 ^ 53 - 1) * 2 ^ 971 < float64Overflow := by
  decide

theorem IsFloat64.lt_overflow {n : Nat} (h : IsFloat64 n) : n < float64Overflow := by
  obtain ⟨m, e, hm, he, rfl⟩ := h
  have h1 : m * 2 ^ e ≤ (2 ^ 53 - 1) * 2 ^ 971 :=
    Nat.mul_le_mul (by omega) (Nat.pow_le_pow_right (by norm_num) he)
  exact Nat.lt_of_le_of_lt h1 maxFloat64_lt_overflow

/-- Rounding leaves a `float64` value as it is. -/
theorem IsFloat64.round_eq {n : Nat} (h : IsFloat64 n) : roundFloat64 n = n := by
  obtain ⟨m, k, hm, -, rfl⟩ := h
  unfold roundFloat64
  by_cases hsmall : m * 2 ^ k < 2 ^ 53
  · rw [if_pos hsmall]
  · rw [if_neg hsmall]
    have hn0 : m * 2 ^ k ≠ 0 := by
      intro h0
      rw [h0] at hsmall
      exact hsmall (by positivity)
    have hlt : m * 2 ^ k < 2 ^ (53 + k) := by
      rw [Nat.pow_add]
      exact Nat.mul_lt_mul_of_lt_of_le hm (Nat.le_refl _) (by positivity)
    have hlog : Nat.log2 (m * 2 ^ k) < 53 + k := (Nat.log2_lt hn0).mpr hlt
    have hge : 53 ≤ Nat.log2 (m * 2 ^ k) := by
      by_contra hcon
      exact hsmall ((Nat.log2_lt hn0).mp (Nat.lt_of_not_le hcon))
    have hek : Nat.log2 (m * 2 ^ k) - 52 ≤ k := by omega
    have hdvd : 2 ^ (Nat.log2 (m * 2 ^ k) - 52) ∣ m * 2 ^ k :=
      Dvd.dvd.mul_left (Nat.pow_dvd_pow 2 hek) m
    have hmod : m * 2 ^ k % 2 ^ (Nat.log2 (m * 2 ^ k) - 52) = 0 := Nat.mod_eq_zero_of_dvd hdvd
    have hhalf : 0 < 2 ^ (Nat.log2 (m * 2 ^ k) - 52 - 1) := by positivity
    simp only [hmod, hhalf, if_true]
    exact Nat.div_mul_cancel hdvd

theorem ParseFloat_of_isFloat64 (d : Str) (hne : d ≠ []) (hd : ∀ c ∈ d, isDigit c = true)
    (h : IsFloat64 (digitsValue d)) : ParseFloat d = .ok (digitsValue d) := by
  rw [ParseFloat_of_lt d hne hd h.lt_overflow, h.round_eq]

/-! ## The loop over a list of lines -/

theorem scanLoop_nil (e : Option Str) (st : Token) : scanLoop e st [] = ⟨[], e⟩ := rfl

theorem scanLoop_cons (e : Option Str) (st : Token) (line : Str) (rest : List Str) :
    scanLoop e st (line :: rest) =
      match loopBody st line with
      | .skip => scanLoop e st rest
      | .emit t => ⟨t :: (scanLoop e t rest).tokens, (scanLoop e t rest).err⟩
      | .fail err => ⟨[], some err⟩ := by
  rw [scanLoop]

theorem stateAfter_cons (st : Token) (line : Str) (rest : List Str) :
    stateAfter st (line :: rest) =
      match loopBody st line with
      | .skip => stateAfter st rest
      | .emit t => stateAfter t rest
      | .fail _ => st := by
  rw [stateAfter]

/-- The tokens sent do not depend on the scanner's final error. -/
theorem scanLoop_tokens (e : Option Str) (st : Token) (lines : List Str) :
    (scanLoop e st lines).tokens = (scanLoop none st lines).tokens := by
  induction lines generalizing st with
  | nil => rfl
  | cons line rest ih =>
    rw [scanLoop_cons, scanLoop_cons]
    cases loopBody st line with
    | skip => exact ih st
    | emit t => simp only [ih t]
    | fail err => rfl

/-- Running over `pre ++ rest` when `pre` runs through: the tokens of `pre`,
then the run over `rest` from the state `pre` leaves. -/
theorem scanLoop_append (e : Option Str) (st : Token) (pre rest : List Str)
    (h : (scanLoop none st pre).err = none) :
    scanLoop e st (pre ++ rest) =
      ⟨(scanLoop none st pre).tokens ++ (scanLoop e (stateAfter st pre) rest).tokens,
        (scanLoop e (stateAfter st pre) rest).err⟩ := by
  induction pre generalizing st with
  | nil => simp [scanLoop_nil, stateAfter]
  | cons line more ih =>
    rw [List.cons_append, scanLoop_cons, scanLoop_cons, stateAfter_cons]
    rw [scanLoop_cons] at h
    cases hb : loopBody st line with
    | skip =>
      rw [hb] at h
      exact ih st h
    | emit t =>
      rw [hb] at h
      simp only [ih t h, List.cons_append]
    | fail err =>
      rw [hb] at h
      cases h

/-! ## C1: defaults of absent fields -/

/-- C1 (the code departs from the claim).  On the lines "apple 120 n",
"banana 50", "cherry" the loop sends banana with the tag "n" and cherry with
frequency 50 and the tag "n": a field absent from a line keeps the value an
earlier line stored in the shared variable `token`, it does not take its
default. -/
theorem c1_defaults_carry_over :
    loadDictionary ["apple 120 n".toList, "banana 50".toList, "cherry".toList] none =
      ⟨[⟨"apple".toList, 120, "n".toList⟩, ⟨"banana".toList, 50, "n".toList⟩,
        ⟨"cherry".toList, 50, "n".toList⟩], none⟩ := by
  decide

/-! ## Lines that carry a frequency field -/

theorem IsField.of_cons {p : Char → Bool} {m : Str} (h : IsField p (SP :: m)) :
    m ≠ [] ∧ ∀ c ∈ m, p c = true := by
  rcases h with h | ⟨a, h1, h2, h3⟩
  · cases h
  · simp only [List.cons.injEq, true_and] at h3
    subst h3
    exact ⟨h1, h2⟩

theorem IsField.mk {p : Char → Bool} {m : Str} (h1 : m ≠ []) (h2 : ∀ c ∈ m, p c = true) :
    IsField p (SP :: m) :=
  Or.inr ⟨m, h1, h2, rfl⟩

theorem not_digits_and_lower {m : Str} (hne : m ≠ []) (hd : ∀ c ∈ m, isDigit c = true)
    (hl : ∀ c ∈ m, isLower c = true) : False := by
  cases m with
  | nil => exact hne rfl
  | cons a as =>
    have := isDigit_not_lower (hd a (List.mem_cons_self _ _))
    rw [hl a (List.mem_cons_self _ _)] at this
    cases this

/-- The tail of the pattern fails at every position before the space of the
frequency field. -/
theorem matchTail_before_freq (t2 d g3 : Str) (ht2 : t2 ≠ []) (hd : d ≠ [])
    (hdig : ∀ c ∈ d, isDigit c = true) (hg3 : IsField isLower g3) :
    matchTail (t2 ++ (SP :: d ++ g3)) = none := by
  rw [matchTail_eq_none_iff]
  intro h2 h3 hh2 hh3 heq
  rcases hg3 with rfl | ⟨p, -, hp, rfl⟩
  · simp only [List.append_nil] at heq
    rcases fields_last t2 d h2 h3 hh2 hh3 (not_mem_SP_of_digits hdig) heq with
      ⟨-, rfl⟩ | ⟨rfl, -, -⟩
    · exact not_digits_and_lower hd hdig hh3.of_cons.2
    · exact ht2 rfl
  · have heq2 : (t2 ++ SP :: d) ++ SP :: p = h2 ++ h3 := by
      rw [← heq]; simp
    rcases fields_last (t2 ++ SP :: d) p h2 h3 hh2 hh3 (not_mem_SP_of_lower hp) heq2 with
      ⟨rfl, -⟩ | ⟨h, -, -⟩
    · rcases hh2 with h | ⟨e, -, he, h⟩
      · cases t2 <;> cases h
      · have := split_last_SP t2 d [] e (not_mem_SP_of_digits hdig) (not_mem_SP_of_digits he) h
        exact ht2 this.1
    · cases t2 <;> cases h

/-- The captures on a line `t`, space, digit run `d`, optional tag. -/
theorem dict_reg_freq (t d g3 : Str) (ht : t ≠ []) (hdot : ∀ c ∈ t, isDot c = true)
    (hd : d ≠ []) (hdig : ∀ c ∈ d, isDigit c = true) (hg3 : IsField isLower g3) :
    dict_reg (t ++ (SP :: d ++ g3)) = [t ++ (SP :: d ++ g3), t, SP :: d, g3] := by
  apply dict_reg_eq t (SP :: d ++ g3) (SP :: d) g3 ht hdot
  · rw [matchTail_eq_some_iff]
    exact ⟨IsField.mk hd hdig, hg3, rfl⟩
  · intro t1 t2 _ _ ht2
    exact matchTail_before_freq t2 d g3 ht2 hd hdig hg3

theorem head?_append_ne_nil (t x : Str) (ht : t ≠ []) : (t ++ x).head? = t.head? := by
  cases t with
  | nil => exact absurd rfl ht
  | cons a as => rfl

theorem getLast?_append_ne_nil (x y : Str) (hy : y ≠ []) : (x ++ y).getLast? = y.getLast? := by
  rw [List.getLast?_append]
  cases h : y.getLast? with
  | none => exact absurd (List.getLast?_eq_none_iff.mp h) hy
  | some a => rfl

/-- A line whose text has no leading white space and which ends in a
frequency or tag field is left as it is by `TrimSpace`. -/
theorem TrimSpace_line_freq (t d g3 : Str) (ht : t ≠ [])
    (hhead : ∀ c, t.head? = some c → isSpace c = false)
    (hd : d ≠ []) (hdig : ∀ c ∈ d, isDigit c = true) (hg3 : IsField isLower g3) :
    TrimSpace (t ++ (SP :: d ++ g3)) = t ++ (SP :: d ++ g3) := by
  apply TrimSpace_eq_self
  · rw [head?_append_ne_nil t _ ht]
    exact hhead
  · intro c hc
    rcases hg3 with rfl | ⟨p, hp, hlow, rfl⟩
    · have e : t ++ (SP :: d ++ []) = (t ++ [SP]) ++ d := by simp
      rw [e, getLast?_append_ne_nil _ d hd] at hc
      exact isDigit_not_space (hdig c (List.mem_of_mem_getLast? hc))
    · have e : t ++ (SP :: d ++ SP :: p) = (t ++ SP :: d ++ [SP]) ++ p := by simp
      rw [e, getLast?_append_ne_nil _ p hp] at hc
      exact isLower_not_space (hlow c (List.mem_of_mem_getLast? hc))

/-- The loop body on a line `t`, space, digit run `d`, optional tag. -/
theorem loopBody_line_freq (st : Token) (t d g3 : Str) (ht : t ≠ [])
    (hhead : ∀ c, t.head? = some c → isSpace c = false)
    (hdot : ∀ c ∈ t, isDot c = true)
    (hd : d ≠ []) (hdig : ∀ c ∈ d, isDigit c = true) (hg3 : IsField isLower g3) :
    loopBody st (t ++ (SP :: d ++ g3)) =
      match ParseFloat d with
      | .error err => .fail (lineError (numErrorText err d) (t ++ (SP :: d ++ g3)))
      | .ok v =>
        .emit (if g3 ≠ [] then ⟨TrimSpace (ReplaceBOM t), v, TrimSpace g3⟩
          else ⟨TrimSpace (ReplaceBOM t), v, st.pos⟩) := by
  apply loopBody_freq st _ (t ++ (SP :: d ++ g3)) t d g3 _ hdig
  rw [TrimSpace_line_freq t d g3 ht hhead hd hdig hg3]
  exact dict_reg_freq t d g3 ht hdot hd hdig hg3

theorem ReplaceBOM_of_not_mem {t : Str} (h : BOM ∉ t) : ReplaceBOM t = t :=
  List.erase_of_not_mem h

/-! ## C2: a line with all three fields -/

/-- C2.  A line `t`, space, `d`, space, `p` — `t` non-empty, without leading
or trailing white space, line feed or byte-order-mark, `d` a non-empty digit
run whose value is a `float64`, `p` a non-empty lowercase run — makes the loop
send exactly the token (`t`, value of `d`, `p`), wherever the line stands in
the stream: after the tokens of the lines before it and whatever state they
left, and before the run over the lines after it. -/
theorem c2_full_line_token (pre post : List Str) (scanErr : Option Str) (t d p : Str)
    (ht : t ≠ []) (hhead : ∀ c, t.head? = some c → isSpace c = false)
    (hlast : ∀ c, t.getLast? = some c → isSpace c = false)
    (hnl : ∀ c ∈ t, isDot c = true) (hbom : BOM ∉ t)
    (hd : d ≠ []) (hdig : ∀ c ∈ d, isDigit c = true) (hrep : IsFloat64 (digitsValue d))
    (hp : p ≠ []) (hlow : ∀ c ∈ p, isLower c = true)
    (hpre : (loadDictionary pre none).err = none) :
    (loadDictionary (pre ++ (t ++ SP :: d ++ SP :: p) :: post) scanErr).tokens =
      (loadDictionary pre none).tokens ++
        ⟨t, digitsValue d, p⟩ :: (scanLoop scanErr ⟨t, digitsValue d, p⟩ post).tokens := by
  have hline : t ++ SP :: d ++ SP :: p = t ++ (SP :: d ++ SP :: p) := by simp
  have hbody : ∀ st, loopBody st (t ++ SP :: d ++ SP :: p) = .emit ⟨t, digitsValue d, p⟩ := by
    intro st
    rw [hline, loopBody_line_freq st t d (SP :: p) ht hhead hnl hd hdig (IsField.mk hp hlow),
      ParseFloat_of_isFloat64 d hd hdig hrep]
    simp only [ne_eq, reduceCtorEq, not_false_eq_true, if_true]
    rw [ReplaceBOM_of_not_mem hbom, TrimSpace_eq_self hhead hlast,
      TrimSpace_SP_run p (fun c hc => isLower_not_space (hlow c hc))]
  unfold loadDictionary at hpre ⊢
  rw [scanLoop_append scanErr _ pre _ hpre]
  simp only [scanLoop_cons, hbody]

/-- C2 at "abc 12 34 n" between "apple 120 n" and "cherry": the text capture
stops at the last digit run. -/
theorem c2_full_line_token_witness :
    (loadDictionary ["apple 120 n".toList, "abc 12 34 n".toList, "cherry".toList] none).tokens =
      (loadDictionary ["apple 120 n".toList] none).tokens ++
        ⟨"abc 12".toList, 34, "n".toList⟩ ::
          (scanLoop none ⟨"abc 12".toList, 34, "n".toList⟩ ["cherry".toList]).tokens :=
  c2_full_line_token ["apple 120 n".toList] ["cherry".toList] none
    "abc 12".toList "34".toList "n".toList (by decide)
    (by intro c h; cases h; decide) (by intro c h; cases h; decide) (by decide) (by decide)
    (by decide) (by decide) ⟨34, 0, by decide, by decide, by decide⟩
    (by decide) (by decide) (by decide)

/-! ## The state the loop carries -/

/-- After a run that went through, the shared variable holds the last token
sent, or its initial value when none was sent. -/
theorem stateAfter_eq_last (st : Token) (pre : List Str)
    (h : (scanLoop none st pre).err = none) :
    stateAfter st pre = (scanLoop none st pre).tokens.getLast?.getD st := by
  induction pre generalizing st with
  | nil => rfl
  | cons line rest ih =>
    rw [scanLoop_cons] at h ⊢
    rw [stateAfter_cons]
    cases hb : loopBody st line with
    | skip =>
      rw [hb] at h
      exact ih st h
    | emit t =>
      rw [hb] at h
      simp only [List.getLast?_cons, Option.getD_some]
      exact ih t h
    | fail err =>
      rw [hb] at h
      cases h

/-- The loader over `pre`, a line on which the loop body sends `tok` from the
state `pre` leaves, and `post`. -/
theorem loadDictionary_emit_at (pre post : List Str) (scanErr : Option Str) (line : Str)
    (tok : Token) (hpre : (loadDictionary pre none).err = none)
    (hbody : loopBody (lastToken (loadDictionary pre none).tokens) line = .emit tok) :
    (loadDictionary (pre ++ line :: post) scanErr).tokens =
      (loadDictionary pre none).tokens ++ tok :: (scanLoop scanErr tok post).tokens := by
  unfold loadDictionary at hpre hbody ⊢
  have hst : stateAfter zeroToken pre = lastToken (scanLoop none zeroToken pre).tokens :=
    stateAfter_eq_last zeroToken pre hpre
  rw [scanLoop_append scanErr zeroToken pre _ hpre]
  simp only [scanLoop_cons, hst, hbody]

/-! ## C3: a trailing lowercase word without a frequency field -/

/-- The captures on a line `t`, space, lowercase run `w`, when `t` does not
itself end in a frequency field: the tag group takes the word, the frequency
group is absent. -/
theorem dict_reg_tag_only (t w : Str) (ht : t ≠ []) (hdot : ∀ c ∈ t, isDot c = true)
    (hw : w ≠ []) (hlow : ∀ c ∈ w, isLower c = true)
    (hnofreq : ∀ u d, u ≠ [] → d ≠ [] → (∀ c ∈ d, isDigit c = true) → t ≠ u ++ SP :: d) :
    dict_reg (t ++ SP :: w) = [t ++ SP :: w, t, [], SP :: w] := by
  apply dict_reg_eq t (SP :: w) [] (SP :: w) ht hdot
  · rw [matchTail_eq_some_iff]
    exact ⟨Or.inl rfl, IsField.mk hw hlow, rfl⟩
  · intro t1 t2 ht12 ht1 ht2
    rw [matchTail_eq_none_iff]
    intro h2 h3 hh2 hh3 heq
    rcases fields_last t2 w h2 h3 hh2 hh3 (not_mem_SP_of_lower hlow) heq with
      ⟨rfl, -⟩ | ⟨rfl, -, -⟩
    · rcases hh2 with rfl | ⟨e, he, hedig, rfl⟩
      · exact ht2 rfl
      · exact hnofreq t1 e ht1 he hedig ht12
    · exact ht2 rfl

theorem TrimSpace_line_tag (t w : Str) (ht : t ≠ [])
    (hhead : ∀ c, t.head? = some c → isSpace c = false)
    (hw : w ≠ []) (hlow : ∀ c ∈ w, isLower c = true) :
    TrimSpace (t ++ SP :: w) = t ++ SP :: w := by
  apply TrimSpace_eq_self
  · rw [head?_append_ne_nil t _ ht]
    exact hhead
  · intro c hc
    have e : t ++ SP :: w = (t ++ [SP]) ++ w := by simp
    rw [e, getLast?_append_ne_nil _ w hw] at hc
    exact isLower_not_space (hlow c (List.mem_of_mem_getLast? hc))

/-- C3 (refuted as stated).  The line "apple n" has no frequency field, yet
the token sent for it has the text "apple", not the entire trimmed line
"apple n". -/
theorem c3_text_is_not_whole_line :
    (loadDictionary ["apple n".toList] none).tokens = [⟨"apple".toList, 0, []⟩] ∧
      "apple".toList ≠ TrimSpace "apple n".toList := by
  decide

/-! ## C4: the first line whose frequency does not parse -/

theorem fieldsOf_eq (line s g1 g2 g3 : Str) (h : dict_reg (TrimSpace line) = [s, g1, g2, g3]) :
    fieldsOf line = [g1, g2, g3] := by
  simp [fieldsOf, h]

theorem failsNumeric_of_nil (line : Str) (h : dict_reg (TrimSpace line) = []) :
    failsNumeric line = false := by
  simp [failsNumeric, fieldsOf, h]

theorem failsNumeric_no_freq (line s g1 g3 : Str)
    (h : dict_reg (TrimSpace line) = [s, g1, [], g3]) : failsNumeric line = false := by
  simp [failsNumeric, fieldsOf, h]

theorem failsNumeric_freq (line s g1 d g3 : Str)
    (h : dict_reg (TrimSpace line) = [s, g1, SP :: d, g3])
    (hd : ∀ c ∈ d, isDigit c = true) :
    failsNumeric line =
      match ParseFloat d with
      | .error _ => true
      | .ok _ => false := by
  have ht : TrimSpace (SP :: d) = d := TrimSpace_SP_run d (fun c hc => isDigit_not_space (hd c hc))
  simp [failsNumeric, fieldsOf, h, ht]

theorem loopBody_fail_of (st : Token) (line : Str) (h : failsNumeric line = true) :
    ∃ err, loopBody st line =
      .fail (lineError (numErrorText err (TrimSpace ((fieldsOf line).getD 1 []))) line) := by
  rcases dict_reg_inv (TrimSpace line) with h0 | ⟨g1, g2, g3, h0, -, -, hg2, -, -⟩
  · rw [failsNumeric_of_nil line h0] at h
    cases h
  · rcases hg2 with rfl | ⟨d, -, hd, rfl⟩
    · rw [failsNumeric_no_freq line _ g1 g3 h0] at h
      cases h
    · have ht : TrimSpace (SP :: d) = d :=
        TrimSpace_SP_run d (fun c hc => isDigit_not_space (hd c hc))
      rw [failsNumeric_freq line _ g1 d g3 h0 hd] at h
      rw [loopBody_freq st line _ g1 d g3 h0 hd, fieldsOf_eq line _ g1 (SP :: d) g3 h0]
      simp only [List.getD_cons_succ, List.getD_cons_zero, ht]
      cases hp : ParseFloat d with
      | ok v => rw [hp] at h; cases h
      | error err => exact ⟨err, rfl⟩

theorem loopBody_not_fail (st : Token) (line : Str) (h : failsNumeric line = false) (e : Str) :
    loopBody st line ≠ .fail e := by
  rcases dict_reg_inv (TrimSpace line) with h0 | ⟨g1, g2, g3, h0, -, -, hg2, -, -⟩
  · rw [loopBody_skip st line h0]
    simp
  · rcases hg2 with rfl | ⟨d, -, hd, rfl⟩
    · rw [loopBody_no_freq st line _ g1 g3 h0]
      simp
    · rw [failsNumeric_freq line _ g1 d g3 h0 hd] at h
      rw [loopBody_freq st line _ g1 d g3 h0 hd]
      cases hp : ParseFloat d with
      | ok v => simp
      | error err => rw [hp] at h; cases h

/-- A run over lines none of which fails numeric parsing sends no error of its
own. -/
theorem scanLoop_err_of_no_fail (e : Option Str) (st : Token) (lines : List Str)
    (h : ∀ l ∈ lines, failsNumeric l = false) : (scanLoop e st lines).err = e := by
  induction lines generalizing st with
  | nil => rfl
  | cons line rest ih =>
    have hrest : ∀ l ∈ rest, failsNumeric l = false :=
      fun l hl => h l (List.mem_cons_of_mem _ hl)
    rw [scanLoop_cons]
    cases hb : loopBody st line with
    | skip => exact ih st hrest
    | emit t => exact ih t hrest
    | fail err => exact absurd hb (loopBody_not_fail st line (h line (List.mem_cons_self _ _)) err)

/-- C4.  When `line` is the first line whose frequency field fails numeric
parsing, the tokens sent are exactly those the lines before it send on their
own, nothing is sent for `line` or for the lines after it (the run is the run
over the lines up to `line`, whatever follows), and one error is sent, whose
text contains `line` as the scanner returned it. -/
theorem c4_early_termination (pre post : List Str) (scanErr : Option Str) (line : Str)
    (hpre : ∀ l ∈ pre, failsNumeric l = false) (hline : failsNumeric line = true) :
    (loadDictionary (pre ++ line :: post) scanErr).tokens = (loadDictionary pre none).tokens ∧
      (∃ e a b, (loadDictionary (pre ++ line :: post) scanErr).err = some e ∧
        e = a ++ line ++ b) ∧
      loadDictionary (pre ++ line :: post) scanErr = loadDictionary (pre ++ [line]) none := by
  have hnone : (scanLoop none zeroToken pre).err = none :=
    scanLoop_err_of_no_fail none zeroToken pre hpre
  obtain ⟨err, hfail⟩ := loopBody_fail_of (stateAfter zeroToken pre) line hline
  have hrun : ∀ (rest : List Str) (e : Option Str),
      loadDictionary (pre ++ line :: rest) e =
        ⟨(loadDictionary pre none).tokens,
          some (lineError (numErrorText err (TrimSpace ((fieldsOf line).getD 1 []))) line)⟩ := by
    intro rest e
    show scanLoop e zeroToken (pre ++ line :: rest) = _
    rw [scanLoop_append e zeroToken pre _ hnone, scanLoop_cons, hfail]
    simp [loadDictionary, zeroToken]
  refine ⟨by rw [hrun], ?_, by rw [hrun, hrun]⟩
  refine ⟨_, "Error:".toList ++
    numErrorText err (TrimSpace ((fieldsOf line).getD 1 [])) ++ ", line(".toList,
    ")".toList, by rw [hrun], ?_⟩
  simp [lineError]

set_option maxRecDepth 100000 in
/-- C4 at "apple 120 n", the line with frequency `10^309`, "cherry": only
apple is sent. -/
theorem c4_early_termination_witness :
    (loadDictionary ("apple 120 n".toList :: hugeLine :: ["cherry".toList]) none).tokens =
        (loadDictionary ["apple 120 n".toList] none).tokens ∧
      (∃ e a b,
        (loadDictionary ("apple 120 n".toList :: hugeLine :: ["cherry".toList]) none).err =
          some e ∧ e = a ++ hugeLine ++ b) ∧
      loadDictionary ("apple 120 n".toList :: hugeLine :: ["cherry".toList]) none =
        loadDictionary ("apple 120 n".toList :: [hugeLine]) none :=
  c4_early_termination ["apple 120 n".toList] ["cherry".toList] none hugeLine
    (by decide) (by decide)

/-! ## C5: order preservation -/

/-- What the loop body does with a line: it skips it exactly when the pattern
does not match, and a token it sends carries the text parsed from the line. -/
theorem loopBody_spec (st : Token) (line : Str) :
    (skipped line = true ∧ loopBody st line = .skip) ∨
      (skipped line = false ∧
        ((∃ t, loopBody st line = .emit t ∧ t.text = textOf line) ∨
          ∃ e, loopBody st line = .fail e)) := by
  rcases dict_reg_inv (TrimSpace line) with h0 | ⟨g1, g2, g3, h0, -, -, hg2, -, -⟩
  · left
    exact ⟨by simp [skipped, h0], loopBody_skip st line h0⟩
  · right
    refine ⟨by simp [skipped, h0], ?_⟩
    have htext : textOf line = TrimSpace (ReplaceBOM g1) := by
      simp [textOf, fieldsOf_eq line _ g1 g2 g3 h0]
    rcases hg2 with rfl | ⟨d, -, hd, rfl⟩
    · left
      exact ⟨_, loopBody_no_freq st line _ g1 g3 h0, htext.symm⟩
    · rw [loopBody_freq st line _ g1 d g3 h0 hd]
      cases hp : ParseFloat d with
      | error err => right; exact ⟨_, rfl⟩
      | ok v =>
        left
        refine ⟨_, rfl, ?_⟩
        by_cases hg : g3 = []
        · simp [hg, htext]
        · simp [hg, htext]

/-- Deleting the skipped lines does not change the run. -/
theorem scanLoop_filter (e : Option Str) (st : Token) (lines : List Str) :
    scanLoop e st (lines.filter (fun l => !skipped l)) = scanLoop e st lines := by
  induction lines generalizing st with
  | nil => rfl
  | cons line rest ih =>
    rcases loopBody_spec st line with ⟨hs, hb⟩ | ⟨hs, ⟨t, hb, -⟩ | ⟨err, hb⟩⟩
    · rw [List.filter_cons_of_neg (by simp [hs]), scanLoop_cons, hb]
      exact ih st
    · rw [List.filter_cons_of_pos (by simp [hs]), scanLoop_cons, scanLoop_cons, hb]
      simp only [ih t]
    · rw [List.filter_cons_of_pos (by simp [hs]), scanLoop_cons, scanLoop_cons, hb]

/-- In a run without error the texts of the tokens sent are the texts parsed
from the lines not skipped, in order. -/
theorem scanLoop_texts (e : Option Str) (st : Token) (lines : List Str)
    (h : (scanLoop e st lines).err = none) :
    (scanLoop e st lines).tokens.map Token.text =
      (lines.filter (fun l => !skipped l)).map textOf := by
  induction lines generalizing st with
  | nil => rfl
  | cons line rest ih =>
    rw [scanLoop_cons] at h ⊢
    rcases loopBody_spec st line with ⟨hs, hb⟩ | ⟨hs, ⟨t, hb, ht⟩ | ⟨err, hb⟩⟩
    · rw [hb] at h ⊢
      rw [List.filter_cons_of_neg (by simp [hs])]
      exact ih st h
    · rw [hb] at h ⊢
      rw [List.filter_cons_of_pos (by simp [hs])]
      simp only [List.map_cons, ht, ih t h]
    · rw [hb] at h
      cases h

/-- C5.  In a run without error, as many tokens are sent as there are lines
not skipped, the text of the i-th token is the text parsed from the i-th such
line, and deleting the skipped lines from the input leaves what is sent
unchanged. -/
theorem c5_order_preservation (lines : List Str) (scanErr : Option Str)
    (h : (loadDictionary lines scanErr).err = none) :
    (loadDictionary lines scanErr).tokens.length =
        (lines.filter (fun l => !skipped l)).length ∧
      (∀ i : Nat, ((loadDictionary lines scanErr).tokens.map Token.text)[i]? =
        ((lines.filter (fun l => !skipped l)).map textOf)[i]?) ∧
      loadDictionary (lines.filter (fun l => !skipped l)) scanErr =
        loadDictionary lines scanErr := by
  have htexts := scanLoop_texts scanErr zeroToken lines h
  refine ⟨?_, ?_, scanLoop_filter scanErr zeroToken lines⟩
  · have := congrArg List.length htexts
    simpa using this
  · intro i
    show ((scanLoop scanErr zeroToken lines).tokens.map Token.text)[i]? = _
    rw [htexts]

/-- C5 on "apple 120 n", an empty line, a blank line, "cherry". -/
theorem c5_order_preservation_witness :
    (loadDictionary ["apple 120 n".toList, [], "   ".toList, "cherry".toList] none).tokens.length =
        (["apple 120 n".toList, [], "   ".toList, "cherry".toList].filter
          (fun l => !skipped l)).length ∧
      (∀ i : Nat, ((loadDictionary ["apple 120 n".toList, [], "   ".toList, "cherry".toList]
          none).tokens.map Token.text)[i]? =
        ((["apple 120 n".toList, [], "   ".toList, "cherry".toList].filter
          (fun l => !skipped l)).map textOf)[i]?) ∧
      loadDictionary (["apple 120 n".toList, [], "   ".toList, "cherry".toList].filter
          (fun l => !skipped l)) none =
        loadDictionary ["apple 120 n".toList, [], "   ".toList, "cherry".toList] none :=
  c5_order_preservation ["apple 120 n".toList, [], "   ".toList, "cherry".toList] none
    (by decide)

/-! ## C6: the text of a token -/

theorem TrimSpace_eq_nil_iff (s : Str) : TrimSpace s = [] ↔ ∀ c ∈ s, isSpace c = true := by
  unfold TrimSpace
  constructor
  · intro h
    rw [List.rdropWhile_eq_nil_iff] at h
    cases hd : s.dropWhile isSpace with
    | nil => exact List.dropWhile_eq_nil_iff.mp hd
    | cons a as =>
      have h1 : isSpace a = true := h a (by rw [hd]; exact List.mem_cons_self _ _)
      have h2 := List.head?_dropWhile_not isSpace s
      rw [hd] at h2
      simp only [List.head?_cons] at h2
      simp [h1] at h2
  · intro h
    rw [List.dropWhile_eq_nil_iff.mpr h]
    rfl

/-- The text stored for a capture that starts with a non-space character is
empty only if the capture is a byte-order-mark followed by white space. -/
theorem text_ne_nil_of_capture (c : Char) (cs : Str) (hc : isSpace c = false)
    (h : (c == BOM && cs.all isSpace) = false) : TrimSpace (ReplaceBOM (c :: cs)) ≠ [] := by
  intro hnil
  rw [TrimSpace_eq_nil_iff] at hnil
  unfold ReplaceBOM at hnil
  by_cases hb : c = BOM
  · subst hb
    rw [List.erase_cons_head] at hnil
    have : cs.all isSpace = true := List.all_eq_true.mpr hnil
    simp [this] at h
  · have hmem : c ∈ (c :: cs).erase BOM := by
      rw [List.erase_cons_tail (by simpa using hb)]
      exact List.mem_cons_self _ _
    have := hnil c hmem
    rw [hc] at this
    cases this

/-- A token the loop body sends for a line whose capture is not a
byte-order-mark followed by white space has a non-empty text. -/
theorem loopBody_text_ne_nil (st : Token) (line : Str) (t : Token)
    (hb : loopBody st line = .emit t) (hline : bomBlank line = false) : t.text ≠ [] := by
  rcases loopBody_spec st line with ⟨-, hs⟩ | ⟨-, ⟨t2, ht2, htext⟩ | ⟨e, he⟩⟩
  · rw [hs] at hb; cases hb
  · rw [ht2] at hb
    simp only [Step.emit.injEq] at hb
    subst hb
    rw [htext]
    rcases dict_reg_inv (TrimSpace line) with h0 | ⟨g1, g2, g3, h0, hne, -, -, -, hhead⟩
    · rw [loopBody_skip st line h0] at ht2; cases ht2
    · have hcap : captureOf line = g1 := by
        simp [captureOf, fieldsOf_eq line _ g1 g2 g3 h0]
      have htx : textOf line = TrimSpace (ReplaceBOM g1) := by
        simp [textOf, fieldsOf_eq line _ g1 g2 g3 h0]
      rw [htx]
      cases g1 with
      | nil => exact absurd rfl hne
      | cons c cs =>
        have hc : isSpace c = false := TrimSpace_head line c (by rw [← hhead]; rfl)
        apply text_ne_nil_of_capture c cs hc
        simpa [bomBlank, hcap] using hline
  · rw [he] at hb; cases hb

/-- C6 (the code departs from the claim).  A line that is just a
byte-order-mark is not white space, so it is not skipped; the pattern matches
it, the byte-order-mark is deleted after the match, and the loop sends a token
whose text is empty. -/
theorem c6_bom_line_gives_empty_text :
    (loadDictionary [[BOM]] none).tokens = [⟨[], 0, []⟩] ∧
      ¬ ∀ tok ∈ (loadDictionary [[BOM]] none).tokens, tok.text ≠ [] := by
  decide

/-- Where the text is non-empty: every token sent has a non-empty text, for
every sequence of lines none of which has for text capture a byte-order-mark
followed by nothing but white space. -/
theorem text_nonempty_of_not_bomBlank (lines : List Str) (scanErr : Option Str)
    (h : ∀ l ∈ lines, bomBlank l = false) :
    ∀ tok ∈ (loadDictionary lines scanErr).tokens, tok.text ≠ [] := by
  unfold loadDictionary
  generalize zeroToken = st
  induction lines generalizing st with
  | nil => intro tok htok; cases htok
  | cons line rest ih =>
    have hrest : ∀ l ∈ rest, bomBlank l = false := fun l hl => h l (List.mem_cons_of_mem _ hl)
    rw [scanLoop_cons]
    cases hb : loopBody st line with
    | skip => exact ih hrest st
    | emit t =>
      intro tok htok
      rcases List.mem_cons.mp htok with rfl | htok
      · exact loopBody_text_ne_nil st line tok hb (h line (List.mem_cons_self _ _))
      · exact ih hrest t tok htok
    | fail err => intro tok htok; cases htok

/-- The texts are non-empty on a line with a byte-order-mark inside its text
and a line that starts with one: neither capture is a byte-order-mark followed
by white space. -/
theorem text_nonempty_witness :
    (∀ l ∈ [Char.ofNat 97 :: BOM :: "b 1".toList, BOM :: "apple".toList],
        bomBlank l = false) ∧
      ∀ tok ∈ (loadDictionary
          [Char.ofNat 97 :: BOM :: "b 1".toList, BOM :: "apple".toList] none).tokens,
        tok.text ≠ [] :=
  ⟨by decide,
    text_nonempty_of_not_bomBlank [Char.ofNat 97 :: BOM :: "b 1".toList, BOM :: "apple".toList] none
      (by decide)⟩

/-! ## C7: extra spaces -/

/-- Two lines on which the loop body does the same from every state can be
exchanged in the input. -/
theorem scanLoop_congr (e : Option Str) (st : Token) (pre post : List Str) (l1 l2 : Str)
    (h : ∀ s, loopBody s l1 = loopBody s l2) :
    scanLoop e st (pre ++ l1 :: post) = scanLoop e st (pre ++ l2 :: post) := by
  induction pre generalizing st with
  | nil => simp only [List.nil_append, scanLoop_cons, h]
  | cons line rest ih =>
    simp only [List.cons_append, scanLoop_cons]
    cases loopBody st line with
    | skip => exact ih st
    | emit t => simp only [ih t]
    | fail err => rfl

theorem mem_replicate_SP {n : Nat} {c : Char} (h : c ∈ List.replicate n SP) :
    isSpace c = true := by
  rw [(List.mem_replicate.mp h).2]
  exact isSpace_SP

theorem ReplaceBOM_append_spaces (t : Str) (n : Nat) :
    ReplaceBOM (t ++ List.replicate n SP) = ReplaceBOM t ++ List.replicate n SP := by
  unfold ReplaceBOM
  rw [List.erase_append]
  by_cases hm : BOM ∈ t
  · simp [hm]
  · have hn : BOM ∉ List.replicate n SP := by
      intro h
      have := mem_replicate_SP h
      rw [isSpace_BOM] at this
      cases this
    simp [hm, List.erase_of_not_mem hn, List.erase_of_not_mem hm]

/-- The loop body on a line of the form text, frequency, optional tag, with
`a` spaces in front, `b` more spaces between text and frequency, and `c`
spaces at the end. -/
theorem loopBody_padded (st : Token) (t d g3 : Str) (a b c : Nat) (ht : t ≠ [])
    (hhead : ∀ x, t.head? = some x → isSpace x = false)
    (hdot : ∀ x ∈ t, isDot x = true)
    (hd : d ≠ []) (hdig : ∀ x ∈ d, isDigit x = true) (hg3 : IsField isLower g3)
    (v : Nat) (hv : ParseFloat d = .ok v) :
    loopBody st (List.replicate a SP ++ t ++ List.replicate (b + 1) SP ++ d ++ g3 ++
        List.replicate c SP) =
      .emit (if g3 ≠ [] then ⟨TrimSpace (ReplaceBOM t), v, TrimSpace g3⟩
          else ⟨TrimSpace (ReplaceBOM t), v, st.pos⟩) := by
  have hshape : List.replicate a SP ++ t ++ List.replicate (b + 1) SP ++ d ++ g3 ++
      List.replicate c SP =
      List.replicate a SP ++ (((t ++ List.replicate b SP) ++ (SP :: d ++ g3)) ++
        List.replicate c SP) := by
    rw [List.replicate_succ']
    simp
  have ht2 : t ++ List.replicate b SP ≠ [] := by simp [ht]
  have hhead2 : ∀ x, (t ++ List.replicate b SP).head? = some x → isSpace x = false := by
    rw [head?_append_ne_nil t _ ht]
    exact hhead
  have hdot2 : ∀ x ∈ t ++ List.replicate b SP, isDot x = true := by
    intro x hx
    rcases List.mem_append.mp hx with hx | hx
    · exact hdot x hx
    · rw [(List.mem_replicate.mp hx).2]
      exact isDot_SP
  have htrim : TrimSpace (List.replicate a SP ++ t ++ List.replicate (b + 1) SP ++ d ++ g3 ++
      List.replicate c SP) = (t ++ List.replicate b SP) ++ (SP :: d ++ g3) := by
    rw [hshape, TrimSpace_space_append _ _ (fun x hx => mem_replicate_SP hx),
      TrimSpace_append_space _ _ (fun x hx => mem_replicate_SP hx)]
    exact TrimSpace_line_freq _ d g3 ht2 hhead2 hd hdig hg3
  have hreg := dict_reg_freq (t ++ List.replicate b SP) d g3 ht2 hdot2 hd hdig hg3
  rw [← htrim] at hreg
  rw [loopBody_freq st _ _ _ d g3 hreg hdig, hv]
  simp only [ReplaceBOM_append_spaces, TrimSpace_append_space _ _ (fun x hx => mem_replicate_SP hx)]

/-- C7 (refuted as stated).  A second space between frequency and tag changes
the token: "apple 120  n" gives the text "apple 120" with frequency 0 and no
tag, "apple 120 n" gives (apple, 120, n). -/
theorem c7_space_before_tag_changes_token :
    (loadDictionary ["apple 120  n".toList] none).tokens = [⟨"apple 120".toList, 0, []⟩] ∧
      (loadDictionary ["apple 120 n".toList] none).tokens =
        [⟨"apple".toList, 120, "n".toList⟩] := by
  decide

/-- C7 (amended).  For a line text, frequency (in `float64` range) and
optional tag, extra spaces in front of the line, at its end, and between text
and frequency change nothing in what the loader sends: the padded line can
replace the single-spaced one anywhere in the input. -/
theorem c7_extra_spaces (pre post : List Str) (scanErr : Option Str) (t d p : Str)
    (a b c : Nat) (ht : t ≠ [])
    (hhead : ∀ x, t.head? = some x → isSpace x = false)
    (hnl : ∀ x ∈ t, isDot x = true)
    (hd : d ≠ []) (hdig : ∀ x ∈ d, isDigit x = true) (hrange : digitsValue d < float64Overflow)
    (hp : p ≠ []) (hlow : ∀ x ∈ p, isLower x = true) :
    loadDictionary (pre ++ (List.replicate a SP ++ t ++ List.replicate (b + 1) SP ++ d ++
          List.replicate c SP) :: post) scanErr =
        loadDictionary (pre ++ (t ++ SP :: d) :: post) scanErr ∧
      loadDictionary (pre ++ (List.replicate a SP ++ t ++ List.replicate (b + 1) SP ++ d ++
          SP :: p ++ List.replicate c SP) :: post) scanErr =
        loadDictionary (pre ++ (t ++ SP :: d ++ SP :: p) :: post) scanErr := by
  have hv := ParseFloat_of_lt d hd hdig hrange
  constructor
  · apply scanLoop_congr
    intro s
    have h1 := loopBody_padded s t d [] a b c ht hhead hnl hd hdig (Or.inl rfl) _ hv
    have h2 := loopBody_padded s t d [] 0 0 0 ht hhead hnl hd hdig (Or.inl rfl) _ hv
    simp only [List.append_nil, List.replicate_zero, List.nil_append, zero_add,
      List.replicate_one] at h1 h2
    rw [h1]
    rw [show t ++ SP :: d = t ++ [SP] ++ d by simp, h2]
  · apply scanLoop_congr
    intro s
    have h1 := loopBody_padded s t d (SP :: p) a b c ht hhead hnl hd hdig (IsField.mk hp hlow) _ hv
    have h2 := loopBody_padded s t d (SP :: p) 0 0 0 ht hhead hnl hd hdig (IsField.mk hp hlow) _ hv
    simp only [List.append_nil, List.replicate_zero, List.nil_append, zero_add,
      List.replicate_one] at h1 h2
    rw [show List.replicate a SP ++ t ++ List.replicate (b + 1) SP ++ d ++ SP :: p ++
        List.replicate c SP = List.replicate a SP ++ t ++ List.replicate (b + 1) SP ++ d ++
        (SP :: p) ++ List.replicate c SP by simp, h1]
    rw [show t ++ SP :: d ++ SP :: p = t ++ [SP] ++ d ++ SP :: p by simp, h2]

/-- C7 (amended) at "apple", "120", "n" with two spaces in front, two between
text and frequency and three at the end. -/
theorem c7_extra_spaces_witness :
    loadDictionary ["  apple  120   ".toList] none =
        loadDictionary ["apple 120".toList] none ∧
      loadDictionary ["  apple  120 n   ".toList] none =
        loadDictionary ["apple 120 n".toList] none :=
  c7_extra_spaces [] [] none "apple".toList "120".toList "n".toList 2 1 3 (by decide)
    (by intro x h; cases h; decide) (by decide) (by decide) (by decide) (by decide)
    (by decide) (by decide)

/-! ## C8: a last field that is neither a digit run nor a lowercase run -/

/-- The captures on a line `t`, space, `f` when `f` holds no white space and
is neither a digit run nor a lowercase run: the text group takes the whole
line. -/
theorem dict_reg_odd_field (t f : Str) (hdot : ∀ c ∈ t, isDot c = true)
    (hfs : ∀ c ∈ f, isSpace c = false)
    (hnd : ∃ c ∈ f, isDigit c = false) (hnl : ∃ c ∈ f, isLower c = false) :
    dict_reg (t ++ SP :: f) = [t ++ SP :: f, t ++ SP :: f, [], []] := by
  have hSPf : SP ∉ f := by
    intro h
    have := hfs SP h
    rw [isSpace_SP] at this
    cases this
  have hlast : ∀ x h2 h3, IsField isDigit h2 → IsField isLower h3 →
      x ++ SP :: f ≠ h2 ++ h3 := by
    intro x h2 h3 hh2 hh3 heq
    rcases fields_last x f h2 h3 hh2 hh3 hSPf heq with ⟨-, rfl⟩ | ⟨-, rfl, -⟩
    · obtain ⟨c, hc, hcl⟩ := hnl
      rw [hh3.of_cons.2 c hc] at hcl
      cases hcl
    · obtain ⟨c, hc, hcd⟩ := hnd
      rw [hh2.of_cons.2 c hc] at hcd
      cases hcd
  have h := dict_reg_eq (t ++ SP :: f) [] [] [] (by simp)
    (by
      intro c hc
      rcases List.mem_append.mp hc with hc | hc
      · exact hdot c hc
      · rcases List.mem_cons.mp hc with rfl | hc
        · exact isDot_SP
        · exact not_space_isDot (hfs c hc))
    matchTail_nil
    (by
      intro t1 t2 h12 ht1 ht2
      rw [List.append_nil, matchTail_eq_none_iff]
      intro h2 h3 hh2 hh3 heq
      rcases List.append_eq_append_iff.mp h12 with ⟨a, h1, h2'⟩ | ⟨c, h1, h2'⟩
      · cases a with
        | nil =>
          simp only [List.nil_append] at h2'
          exact hlast [] h2 h3 hh2 hh3 (by rw [← heq, ← h2']; rfl)
        | cons x xs =>
          simp only [List.cons_append, List.cons.injEq] at h2'
          have hmem : SP ∈ f := by
            rcases matchTail_head ((matchTail_eq_some_iff t2 h2 h3).mpr ⟨hh2, hh3, heq⟩) with
              h0 | ⟨r, h0⟩
            · exact absurd h0 ht2
            · rw [h2'.2, h0]
              simp
          exact hSPf hmem
      · exact hlast c h2 h3 hh2 hh3 (by rw [← heq, h2']))
  simpa using h

/-- C8 (refuted as stated).  The line "grape 1a" is not skipped: a token with
the text "grape 1a" is sent for it. -/
theorem c8_odd_field_not_skipped :
    loadDictionary ["grape 1a".toList] none = ⟨[⟨"grape 1a".toList, 0, []⟩], none⟩ := by
  decide

/-- C8 (amended).  A line `t`, space, `f` — `t` non-empty, without leading
white space or line feed, `f` without white space, holding a character that is
not a digit and one that is not a lowercase letter — is not skipped and raises
no error: the pattern gives the whole line to the text group, from every state
the loop body sends the state with its text replaced by the whole line
(byte-order-mark removed, trimmed), and the token the loader sends for the
line has that text. -/
theorem c8_odd_field_is_text (pre post : List Str) (scanErr : Option Str) (t f : Str)
    (ht : t ≠ []) (hhead : ∀ c, t.head? = some c → isSpace c = false)
    (hnl : ∀ c ∈ t, isDot c = true) (hf : f ≠ []) (hfs : ∀ c ∈ f, isSpace c = false)
    (hnd : ∃ c ∈ f, isDigit c = false) (hnlow : ∃ c ∈ f, isLower c = false)
    (hpre : (loadDictionary pre none).err = none) :
    (∀ st : Token, loopBody st (t ++ SP :: f) =
        .emit { st with text := TrimSpace (ReplaceBOM (t ++ SP :: f)) }) ∧
      ∃ tok, tok.text = TrimSpace (ReplaceBOM (t ++ SP :: f)) ∧
        (loadDictionary (pre ++ (t ++ SP :: f) :: post) scanErr).tokens =
          (loadDictionary pre none).tokens ++ tok :: (scanLoop scanErr tok post).tokens := by
  have htrim : TrimSpace (t ++ SP :: f) = t ++ SP :: f := by
    apply TrimSpace_eq_self
    · rw [head?_append_ne_nil t _ ht]
      exact hhead
    · intro c hc
      have e : t ++ SP :: f = (t ++ [SP]) ++ f := by simp
      rw [e, getLast?_append_ne_nil _ f hf] at hc
      exact hfs c (List.mem_of_mem_getLast? hc)
  have hbody : ∀ st : Token, loopBody st (t ++ SP :: f) =
      .emit { st with text := TrimSpace (ReplaceBOM (t ++ SP :: f)) } := by
    intro st
    apply loopBody_no_freq _ _ (t ++ SP :: f) (t ++ SP :: f) []
    rw [htrim]
    exact dict_reg_odd_field t f hnl hfs hnd hnlow
  exact ⟨hbody, _, rfl, loadDictionary_emit_at pre post scanErr _ _ hpre (hbody _)⟩

/-- C8 (amended) at "grape 1a" after "apple 120 n": the text is "grape 1a". -/
theorem c8_odd_field_is_text_witness :
    (∀ st : Token,
        loopBody st "grape 1a".toList = .emit { st with text := "grape 1a".toList }) ∧
      ∃ tok, tok.text = "grape 1a".toList ∧
        (loadDictionary ["apple 120 n".toList, "grape 1a".toList] none).tokens =
          (loadDictionary ["apple 120 n".toList] none).tokens ++
            tok :: (scanLoop none tok []).tokens :=
  c8_odd_field_is_text ["apple 120 n".toList] [] none "grape".toList "1a".toList (by decide)
    (by intro c h; cases h; decide) (by decide) (by decide) (by decide)
    ⟨Char.ofNat 97, by decide, by decide⟩ ⟨Char.ofNat 49, by decide, by decide⟩ (by decide)

/-! ## C9: when the numeric parse fails -/

theorem float64Overflow_pos : 0 < float64Overflow := by
  decide

/-- A line fails numeric parsing exactly when the value of its frequency
digits is out of the `float64` range. -/
theorem failsNumeric_iff (line : Str) :
    failsNumeric line = true ↔ float64Overflow ≤ freqValue line := by
  unfold freqValue
  rcases dict_reg_inv (TrimSpace line) with h0 | ⟨g1, g2, g3, h0, -, -, hg2, -, -⟩
  · have hf : fieldsOf line = [] := by simp [fieldsOf, h0]
    rw [failsNumeric_of_nil line h0, hf]
    have := float64Overflow_pos
    simp [TrimSpace, digitsValue]
    omega
  · rw [fieldsOf_eq line _ g1 g2 g3 h0]
    simp only [List.getD_cons_succ, List.getD_cons_zero]
    rcases hg2 with rfl | ⟨d, hd, hdig, rfl⟩
    · rw [failsNumeric_no_freq line _ g1 g3 h0]
      have := float64Overflow_pos
      simp [TrimSpace, digitsValue]
      omega
    · have ht : TrimSpace (SP :: d) = d :=
        TrimSpace_SP_run d (fun c hc => isDigit_not_space (hdig c hc))
      rw [failsNumeric_freq line _ g1 d g3 h0 hdig, ht]
      by_cases hr : float64Overflow ≤ digitsValue d
      · simp [ParseFloat_of_ge d hd hdig hr, hr]
      · simp [ParseFloat_of_lt d hd hdig (Nat.lt_of_not_le hr), hr]

set_option maxRecDepth 100000 in
/-- C9 (refuted as stated).  On the line "pear " followed by 1 and 309 zeros
the frequency group matches a run of 310 digits, the numeric parse fails (the
value is out of range) and the loader sends the line-parse error. -/
theorem c9_parse_error_reachable :
    (fieldsOf hugeLine).getD 1 [] = SP :: Char.ofNat 49 :: List.replicate 309 (Char.ofNat 48) ∧
      loadDictionary [hugeLine] none =
        ⟨[], some (lineError (numErrorText .ErrRange
          (Char.ofNat 49 :: List.replicate 309 (Char.ofNat 48))) hugeLine)⟩ := by
  decide

/-- C9 (amended).  The numeric parse of a matched frequency group succeeds
whenever the value of its digits is below `2^1024 - 2^970`: over lines that all
meet this bound the loader sends no line-parse error, only what the scanner
reports.  A frequency group whose digits reach the bound, however long or
short the run, makes the loop body fail from every state. -/
theorem c9_parse_error_only_out_of_range (lines : List Str) (scanErr : Option Str)
    (h : ∀ l ∈ lines, freqValue l < float64Overflow) :
    (loadDictionary lines scanErr).err = scanErr ∧
      ∀ (st : Token) (line : Str), float64Overflow ≤ freqValue line →
        ∃ e, loopBody st line = .fail e := by
  constructor
  · apply scanLoop_err_of_no_fail
    intro l hl
    cases hf : failsNumeric l with
    | false => rfl
    | true => exact absurd ((failsNumeric_iff l).mp hf) (Nat.not_le.mpr (h l hl))
  · intro st line hge
    obtain ⟨err, herr⟩ := loopBody_fail_of st line ((failsNumeric_iff line).mpr hge)
    exact ⟨_, herr⟩

/-- C9 (amended) on "apple 120 n", "banana 50", "cherry". -/
theorem c9_parse_error_only_out_of_range_witness :
    (loadDictionary ["apple 120 n".toList, "banana 50".toList, "cherry".toList] none).err =
        none ∧
      ∀ (st : Token) (line : Str), float64Overflow ≤ freqValue line →
        ∃ e, loopBody st line = .fail e :=
  c9_parse_error_only_out_of_range
    ["apple 120 n".toList, "banana 50".toList, "cherry".toList] none (by decide)

/-! ## C10: a byte-order-mark in front of the first term -/

/-- The captures on a line made of a byte-order-mark and a term that does not
end in a space followed by a digit run or a lowercase run: the text group
takes the whole line. -/
theorem dict_reg_bom_term (term : Str) (hdot : ∀ c ∈ term, isDot c = true)
    (hnotail : ∀ u m, m ≠ [] → ((∀ c ∈ m, isDigit c = true) ∨ (∀ c ∈ m, isLower c = true)) →
      term ≠ u ++ SP :: m) :
    dict_reg (BOM :: term) = [BOM :: term, BOM :: term, [], []] := by
  have h := dict_reg_eq (BOM :: term) [] [] [] (by simp)
    (by
      intro c hc
      rcases List.mem_cons.mp hc with rfl | hc
      · decide
      · exact hdot c hc)
    matchTail_nil
    (by
      intro t1 t2 h12 ht1 ht2
      rw [List.append_nil, matchTail_eq_none_iff]
      intro h2 h3 hh2 hh3 heq
      cases t1 with
      | nil => exact ht1 rfl
      | cons x xs =>
        simp only [List.cons_append, List.cons.injEq] at h12
        obtain ⟨-, hterm⟩ := h12
        rcases hh3 with rfl | ⟨a, ha, halow, rfl⟩
        · rcases hh2 with rfl | ⟨e, he, hedig, rfl⟩
          · exact ht2 (by simpa using heq)
          · exact hnotail xs e he (Or.inl hedig) (by rw [hterm, heq]; simp)
        · exact hnotail (xs ++ h2) a ha (Or.inr halow) (by rw [hterm, heq]; simp))
  simpa using h

theorem ReplaceBOM_cons_BOM (term : Str) : ReplaceBOM (BOM :: term) = term := by
  simp [ReplaceBOM]

/-- C10 (refuted as stated).  The first line is a byte-order-mark followed by
the term "new york", which holds no byte-order-mark; the token sent has the
text "new", not the term. -/
theorem c10_bom_term_cut_short :
    (loadDictionary [BOM :: "new york".toList] none).tokens = [⟨"new".toList, 0, []⟩] ∧
      "new".toList ≠ "new york".toList := by
  decide

/-- C10 (amended).  Let the first line be a byte-order-mark followed by a term
without byte-order-mark, leading or trailing white space, or line feed.  If a
frequency (digit run in `float64` range) follows, with or without a tag, the
first token sent has the term for text, and this text holds no
byte-order-mark.  If the term stands alone, the same holds provided the term
does not end in a space followed by a digit run or a lowercase run. -/
theorem c10_bom_stripped (post : List Str) (scanErr : Option Str) (term d p : Str)
    (ht : term ≠ []) (hhead : ∀ c, term.head? = some c → isSpace c = false)
    (hlast : ∀ c, term.getLast? = some c → isSpace c = false)
    (hnl : ∀ c ∈ term, isDot c = true) (hbom : BOM ∉ term)
    (hd : d ≠ []) (hdig : ∀ c ∈ d, isDigit c = true) (hrange : digitsValue d < float64Overflow)
    (hp : p ≠ []) (hlow : ∀ c ∈ p, isLower c = true) :
    ((∀ u m, m ≠ [] → ((∀ c ∈ m, isDigit c = true) ∨ (∀ c ∈ m, isLower c = true)) →
          term ≠ u ++ SP :: m) →
        ∃ tok, (loadDictionary ((BOM :: term) :: post) scanErr).tokens.head? = some tok ∧
          tok.text = term ∧ BOM ∉ tok.text) ∧
      (∃ tok, (loadDictionary ((BOM :: term ++ SP :: d) :: post) scanErr).tokens.head? =
          some tok ∧ tok.text = term ∧ BOM ∉ tok.text) ∧
      (∃ tok, (loadDictionary ((BOM :: term ++ SP :: d ++ SP :: p) :: post)
          scanErr).tokens.head? = some tok ∧ tok.text = term ∧ BOM ∉ tok.text) := by
  have htext : TrimSpace (ReplaceBOM (BOM :: term)) = term := by
    rw [ReplaceBOM_cons_BOM, TrimSpace_eq_self hhead hlast]
  have hbhead : ∀ c, (BOM :: term).head? = some c → isSpace c = false := by
    intro c hc
    simp only [List.head?_cons, Option.some.injEq] at hc
    subst hc
    exact isSpace_BOM
  have hbdot : ∀ c ∈ BOM :: term, isDot c = true := by
    intro c hc
    rcases List.mem_cons.mp hc with rfl | hc
    · decide
    · exact hnl c hc
  have hv := ParseFloat_of_lt d hd hdig hrange
  refine ⟨?_, ?_, ?_⟩
  · intro hnotail
    have htrim : TrimSpace (BOM :: term) = BOM :: term := by
      apply TrimSpace_eq_self hbhead
      intro c hc
      have e : BOM :: term = [BOM] ++ term := rfl
      rw [e, getLast?_append_ne_nil _ term ht] at hc
      exact hlast c hc
    have hbody : loopBody zeroToken (BOM :: term) = .emit ⟨term, 0, []⟩ := by
      rw [loopBody_no_freq zeroToken (BOM :: term) (BOM :: term) (BOM :: term) []
        (by rw [htrim]; exact dict_reg_bom_term term hnl hnotail), htext]
      rfl
    refine ⟨⟨term, 0, []⟩, ?_, rfl, hbom⟩
    show (scanLoop scanErr zeroToken ((BOM :: term) :: post)).tokens.head? = _
    rw [scanLoop_cons, hbody]
    rfl
  · have hbody : loopBody zeroToken (BOM :: term ++ SP :: d) =
        .emit ⟨term, roundFloat64 (digitsValue d), []⟩ := by
      have h := loopBody_line_freq zeroToken (BOM :: term) d [] (by simp) hbhead hbdot hd hdig
        (Or.inl rfl)
      rw [hv, htext] at h
      simpa [zeroToken] using h
    refine ⟨⟨term, roundFloat64 (digitsValue d), []⟩, ?_, rfl, hbom⟩
    show (scanLoop scanErr zeroToken ((BOM :: term ++ SP :: d) :: post)).tokens.head? = _
    rw [scanLoop_cons, hbody]
    rfl
  · have hbody : loopBody zeroToken (BOM :: term ++ SP :: d ++ SP :: p) =
        .emit ⟨term, roundFloat64 (digitsValue d), p⟩ := by
      have h := loopBody_line_freq zeroToken (BOM :: term) d (SP :: p) (by simp) hbhead hbdot
        hd hdig (IsField.mk hp hlow)
      rw [hv, htext, TrimSpace_SP_run p (fun c hc => isLower_not_space (hlow c hc))] at h
      simpa using h
    refine ⟨⟨term, roundFloat64 (digitsValue d), p⟩, ?_, rfl, hbom⟩
    show (scanLoop scanErr zeroToken ((BOM :: term ++ SP :: d ++ SP :: p) :: post)).tokens.head?
      = _
    rw [scanLoop_cons, hbody]
    rfl

/-- C10 (amended) at the term "apple", alone, with the frequency "120", and
with the frequency and the tag "n", each time followed by the line
"cherry". -/
theorem c10_bom_stripped_witness :
    (∃ tok, (loadDictionary ((BOM :: "apple".toList) :: ["cherry".toList]) none).tokens.head? =
        some tok ∧ tok.text = "apple".toList ∧ BOM ∉ tok.text) ∧
      (∃ tok, (loadDictionary ((BOM :: "apple 120".toList) :: ["cherry".toList])
          none).tokens.head? = some tok ∧ tok.text = "apple".toList ∧ BOM ∉ tok.text) ∧
      (∃ tok, (loadDictionary ((BOM :: "apple 120 n".toList) :: ["cherry".toList])
          none).tokens.head? = some tok ∧ tok.text = "apple".toList ∧ BOM ∉ tok.text) :=
  have h := c10_bom_stripped ["cherry".toList] none "apple".toList "120".toList "n".toList
    (by decide) (by intro c h; cases h; decide) (by intro c h; cases h; decide) (by decide)
    (by decide) (by decide) (by decide) (by decide) (by decide) (by decide)
  ⟨h.1 (by
      intro u m _ _ hm
      have hsp : SP ∈ "apple".toList := by rw [hm]; simp
      revert hsp
      decide), h.2.1, h.2.2⟩

/-! ## C11: the part-of-speech of a token -/

theorem PosOK_of_lower {m : Str} (hne : m ≠ []) (hm : ∀ c ∈ m, isLower c = true) : PosOK m :=
  Or.inr ⟨hne, hm, TrimSpace_eq_self
    (fun c hc => isLower_not_space (hm c (List.mem_of_mem_head? hc)))
    (fun c hc => isLower_not_space (hm c (List.mem_of_mem_getLast? hc)))⟩

/-- The loop body keeps the tag of the shared variable well-formed. -/
theorem loopBody_pos (st : Token) (line : Str) (t : Token)
    (hb : loopBody st line = .emit t) (hst : PosOK st.pos) : PosOK t.pos := by
  rcases dict_reg_inv (TrimSpace line) with h0 | ⟨g1, g2, g3, h0, -, -, hg2, hg3, -⟩
  · rw [loopBody_skip st line h0] at hb
    cases hb
  · rcases hg2 with rfl | ⟨d, -, hd, rfl⟩
    · rw [loopBody_no_freq st line _ g1 g3 h0] at hb
      simp only [Step.emit.injEq] at hb
      subst hb
      exact hst
    · rw [loopBody_freq st line _ g1 d g3 h0 hd] at hb
      cases hp : ParseFloat d with
      | error err => rw [hp] at hb; cases hb
      | ok v =>
        rw [hp] at hb
        simp only [Step.emit.injEq] at hb
        subst hb
        rcases hg3 with rfl | ⟨m, hne, hm, rfl⟩
        · simpa using hst
        · have ht : TrimSpace (SP :: m) = m :=
            TrimSpace_SP_run m (fun c hc => isLower_not_space (hm c hc))
          simp only [ne_eq, reduceCtorEq, not_false_eq_true, if_true, ht]
          exact PosOK_of_lower hne hm

theorem scanLoop_pos (e : Option Str) (st : Token) (lines : List Str) (hst : PosOK st.pos) :
    ∀ tok ∈ (scanLoop e st lines).tokens, PosOK tok.pos := by
  induction lines generalizing st with
  | nil => intro tok htok; cases htok
  | cons line rest ih =>
    rw [scanLoop_cons]
    cases hb : loopBody st line with
    | skip => exact ih st hst
    | emit t =>
      have ht : PosOK t.pos := loopBody_pos st line t hb hst
      intro tok htok
      rcases List.mem_cons.mp htok with rfl | htok
      · exact ht
      · exact ih t ht tok htok
    | fail err => intro tok htok; cases htok

/-- C11.  For every sequence of lines and every scanner outcome, the
part-of-speech of every token sent is empty or a non-empty run of lowercase
ASCII letters with no white space around it. -/
theorem c11_pos_wellformed (lines : List Str) (scanErr : Option Str) :
    ∀ tok ∈ (loadDictionary lines scanErr).tokens,
      tok.pos = [] ∨
        (tok.pos ≠ [] ∧ (∀ c ∈ tok.pos, isLower c = true) ∧ TrimSpace tok.pos = tok.pos) :=
  scanLoop_pos scanErr zeroToken lines (Or.inl rfl)

/-- C11 at the token (banana, 50, n) sent for "banana 50" after
"apple 120 n": its tag, carried over, is a lowercase run. -/
theorem c11_pos_wellformed_witness :
    (⟨"banana".toList, 50, "n".toList⟩ : Token) ∈
        (loadDictionary ["apple 120 n".toList, "banana 50".toList] none).tokens ∧
      ("n".toList = [] ∨
        ("n".toList ≠ [] ∧ (∀ c ∈ "n".toList, isLower c = true) ∧
          TrimSpace "n".toList = "n".toList)) :=
  ⟨by decide,
    c11_pos_wellformed ["apple 120 n".toList, "banana 50".toList] none
      ⟨"banana".toList, 50, "n".toList⟩ (by decide)⟩

/-! ## C16: which lines are skipped -/

theorem mem_of_mem_TrimSpace {s : Str} {c : Char} (h : c ∈ TrimSpace s) : c ∈ s := by
  unfold TrimSpace at h
  have h1 : c ∈ s.dropWhile isSpace :=
    (List.rdropWhile_prefix isSpace (s.dropWhile isSpace)).subset h
  exact (List.dropWhile_suffix isSpace).subset h1

theorem mem_dropWhile_of_not_space {s : Str} {c : Char} (h : c ∈ s)
    (hc : isSpace c = false) : c ∈ s.dropWhile isSpace := by
  rw [← List.takeWhile_append_dropWhile isSpace s] at h
  rcases List.mem_append.mp h with h | h
  · have := List.mem_takeWhile_imp h
    rw [hc] at this
    cases this
  · exact h

theorem mem_TrimSpace_of_not_space {s : Str} {c : Char} (h : c ∈ s)
    (hc : isSpace c = false) : c ∈ TrimSpace s := by
  unfold TrimSpace List.rdropWhile
  rw [List.mem_reverse]
  apply mem_dropWhile_of_not_space _ hc
  rw [List.mem_reverse]
  exact mem_dropWhile_of_not_space h hc

/-- C16.  On a line without line feed (the scanner delivers no other) the
loop body skips exactly when the trimmed line is empty; on every other line it
sends a token or fails with the terminal error.  The reason: `dict_reg`
matches every non-empty string that holds no line feed. -/
theorem c16_skip_iff_blank (st : Token) (line : Str) (hnl : ∀ c ∈ line, isDot c = true) :
    (loopBody st line = .skip ↔ TrimSpace line = []) ∧
      (skipped line = true ↔ TrimSpace line = []) ∧
      (TrimSpace line ≠ [] →
        (∃ t, loopBody st line = .emit t) ∨ ∃ e, loopBody st line = .fail e) ∧
      ∀ s : Str, s ≠ [] → (∀ c ∈ s, isDot c = true) → dict_reg s ≠ [] := by
  have hiff : skipped line = true ↔ TrimSpace line = [] := by
    constructor
    · intro hs
      by_contra hne
      have hmatch := dict_reg_ne_nil (TrimSpace line) hne
        (fun c hc => hnl c (mem_of_mem_TrimSpace hc))
      apply hmatch
      simpa [skipped] using hs
    · intro h0
      simp [skipped, h0, dict_reg]
  refine ⟨?_, hiff, ?_, dict_reg_ne_nil⟩
  · rw [← hiff]
    rcases loopBody_spec st line with ⟨hs, hb⟩ | ⟨hs, ⟨t, hb, -⟩ | ⟨e, hb⟩⟩
    · simp [hs, hb]
    · simp [hs, hb]
    · simp [hs, hb]
  · intro hne
    rcases loopBody_spec st line with ⟨hs, -⟩ | ⟨-, ⟨t, hb, -⟩ | ⟨e, hb⟩⟩
    · exact absurd (hiff.mp hs) hne
    · exact Or.inl ⟨t, hb⟩
    · exact Or.inr ⟨e, hb⟩

/-- C16 at "# comment-ish noise": the line holds no line feed and is not
blank; it is not skipped, the loop body sends a token or fails. -/
theorem c16_skip_iff_blank_witness :
    (∀ c ∈ "# comment-ish noise".toList, isDot c = true) ∧
      TrimSpace "# comment-ish noise".toList ≠ [] ∧
      skipped "# comment-ish noise".toList = false ∧
      ((∃ t, loopBody zeroToken "# comment-ish noise".toList = .emit t) ∨
        ∃ e, loopBody zeroToken "# comment-ish noise".toList = .fail e) :=
  have h := c16_skip_iff_blank zeroToken "# comment-ish noise".toList (by decide)
  ⟨by decide, by decide, by decide, h.2.2.1 (by decide)⟩

/-! ## C17: which byte-order-mark is removed -/

/-- C17.  For every line on which the loop body sends a token, the text of
the token is the text capture with its first byte-order-mark deleted, then
trimmed.  The deletion takes the first occurrence wherever it stands, and only
that one: the number of byte-order-marks goes down by one (or stays 0), and a
capture that holds two of them gives a text that still holds one. -/
theorem c17_bom_removed_once (st : Token) (line : Str) (tok : Token)
    (hb : loopBody st line = .emit tok) :
    tok.text = TrimSpace (ReplaceBOM (captureOf line)) ∧
      (∀ a b, captureOf line = a ++ BOM :: b → BOM ∉ a →
        ReplaceBOM (captureOf line) = a ++ b) ∧
      (BOM ∉ captureOf line → ReplaceBOM (captureOf line) = captureOf line) ∧
      (ReplaceBOM (captureOf line)).count BOM = (captureOf line).count BOM - 1 ∧
      (2 ≤ (captureOf line).count BOM → BOM ∈ tok.text) := by
  have htext : tok.text = TrimSpace (ReplaceBOM (captureOf line)) := by
    rcases loopBody_spec st line with ⟨-, hs⟩ | ⟨-, ⟨t, ht, htx⟩ | ⟨e, he⟩⟩
    · rw [hs] at hb; cases hb
    · rw [ht] at hb
      simp only [Step.emit.injEq] at hb
      subst hb
      exact htx
    · rw [he] at hb; cases hb
  have hcount : (ReplaceBOM (captureOf line)).count BOM = (captureOf line).count BOM - 1 :=
    List.count_erase_self BOM (captureOf line)
  refine ⟨htext, ?_, ReplaceBOM_of_not_mem, hcount, ?_⟩
  · intro a b hab ha
    unfold ReplaceBOM
    rw [hab, List.erase_append_right _ ha, List.erase_cons_head]
  · intro h2
    rw [htext]
    apply mem_TrimSpace_of_not_space _ isSpace_BOM
    rw [← List.count_pos_iff, hcount]
    omega

/-- C17 at the line "a", mark, "b", mark, "c 5": the capture holds two
byte-order-marks, the first goes, the second stays in the text of the token. -/
theorem c17_bom_removed_once_witness :
    loopBody zeroToken twoBomLine =
        .emit ⟨Char.ofNat 97 :: Char.ofNat 98 :: BOM :: [Char.ofNat 99], 5, []⟩ ∧
      [Char.ofNat 97, Char.ofNat 98, BOM, Char.ofNat 99] =
        TrimSpace (ReplaceBOM (captureOf twoBomLine)) ∧
      2 ≤ (captureOf twoBomLine).count BOM ∧
      BOM ∈ [Char.ofNat 97, Char.ofNat 98, BOM, Char.ofNat 99] :=
  have h := c17_bom_removed_once zeroToken twoBomLine
    ⟨Char.ofNat 97 :: Char.ofNat 98 :: BOM :: [Char.ofNat 99], 5, []⟩ (by decide)
  ⟨by decide, h.1, by decide, h.2.2.2.2 (by decide)⟩

/-! ## C15: what the shared variable carries over -/

theorem ParseFloat_ok_eq (d : Str) (v : Nat) (h : ParseFloat d = .ok v) :
    v = roundFloat64 (digitsValue d) := by
  unfold ParseFloat at h
  split at h
  · split at h
    · cases h
    · simp only [Except.ok.injEq] at h
      exact h.symm
  · cases h

/-- The token the loop body sends: the text of the line, the frequency and
the tag of the line where it has them, those of the state where it has not. -/
theorem loopBody_emit_eq (st : Token) (line : Str) (t : Token)
    (hb : loopBody st line = .emit t) :
    t = ⟨textOf line, if hasFreq line then storedFreq line else st.frequency,
      if hasFreq line && hasPos line then tagOfLine line else st.pos⟩ := by
  rcases dict_reg_inv (TrimSpace line) with h0 | ⟨g1, g2, g3, h0, -, -, hg2, hg3, -⟩
  · rw [loopBody_skip st line h0] at hb
    cases hb
  · have hf := fieldsOf_eq line _ g1 g2 g3 h0
    have htext : textOf line = TrimSpace (ReplaceBOM g1) := by simp [textOf, hf]
    rcases hg2 with rfl | ⟨d, -, hd, rfl⟩
    · rw [loopBody_no_freq st line _ g1 g3 h0] at hb
      simp only [Step.emit.injEq] at hb
      subst hb
      simp [hasFreq, hf, htext]
    · have ht : TrimSpace (SP :: d) = d :=
        TrimSpace_SP_run d (fun c hc => isDigit_not_space (hd c hc))
      rw [loopBody_freq st line _ g1 d g3 h0 hd] at hb
      cases hp : ParseFloat d with
      | error err => rw [hp] at hb; cases hb
      | ok v =>
        rw [hp] at hb
        simp only [Step.emit.injEq] at hb
        subst hb
        have hv := ParseFloat_ok_eq d v hp
        have hnum : storedFreq line = v := by
          simp [storedFreq, freqValue, hf, ht, hv]
        by_cases hg : g3 = []
        · simp [hasFreq, hasPos, hf, htext, hnum, hg]
        · simp [hasFreq, hasPos, hf, htext, hnum, hg, tagOfLine]

/-- A run that sends no error sent none over any of its prefixes. -/
theorem scanLoop_err_prefix (e : Option Str) (st : Token) (pre rest : List Str)
    (h : (scanLoop e st (pre ++ rest)).err = none) : (scanLoop none st pre).err = none := by
  induction pre generalizing st with
  | nil => rfl
  | cons line more ih =>
    rw [List.cons_append, scanLoop_cons] at h
    rw [scanLoop_cons]
    cases hb : loopBody st line with
    | skip =>
      rw [hb] at h
      exact ih st h
    | emit t =>
      rw [hb] at h
      exact ih t h
    | fail err =>
      rw [hb] at h
      cases h

/-- The frequency and the tag of the shared variable after a run without
error: those of the latest line that set them, else those it started with. -/
theorem stateAfter_carry (st : Token) (pre : List Str)
    (h : (scanLoop none st pre).err = none) :
    (stateAfter st pre).frequency =
        ((pre.reverse.find? hasFreq).map storedFreq).getD st.frequency ∧
      (stateAfter st pre).pos =
        ((pre.reverse.find? (fun l => hasFreq l && hasPos l)).map tagOfLine).getD st.pos := by
  induction pre generalizing st with
  | nil => exact ⟨rfl, rfl⟩
  | cons line rest ih =>
    rw [scanLoop_cons] at h
    rw [stateAfter_cons]
    simp only [List.reverse_cons, List.find?_append]
    cases hb : loopBody st line with
    | skip =>
      rw [hb] at h
      rcases loopBody_spec st line with ⟨hs, -⟩ | ⟨-, ⟨t, ht, -⟩ | ⟨e, he⟩⟩
      · have hf : fieldsOf line = [] := by
          have : dict_reg (TrimSpace line) = [] := by
            simpa [skipped] using hs
          simp [fieldsOf, this]
        obtain ⟨h1, h2⟩ := ih st h
        simp only [h1, h2]
        constructor
        · cases rest.reverse.find? hasFreq <;> simp [hasFreq, hf]
        · cases rest.reverse.find? (fun l => hasFreq l && hasPos l) <;> simp [hasFreq, hf]
      · rw [ht] at hb; cases hb
      · rw [he] at hb; cases hb
    | emit t =>
      rw [hb] at h
      obtain ⟨h1, h2⟩ := ih t h
      have ht := loopBody_emit_eq st line t hb
      simp only [h1, h2]
      constructor
      · cases rest.reverse.find? hasFreq with
        | some l => simp
        | none =>
          rw [ht]
          by_cases hfq : hasFreq line = true
          · simp [hfq]
          · simp [hfq]
      · cases rest.reverse.find? (fun l => hasFreq l && hasPos l) with
        | some l => simp
        | none =>
          rw [ht]
          by_cases hfq : (hasFreq line && hasPos line) = true
          · simp [hfq]
          · simp [hfq]
    | fail err =>
      rw [hb] at h
      cases h

theorem roundFloat64_zero : roundFloat64 0 = 0 := by
  decide

/-- Rounding at `2^53 + 1`: the tie goes to the even significand, `2^53`. -/
theorem roundFloat64_odd : roundFloat64 9007199254740993 = 9007199254740992 := by
  have h1 : Nat.log2 9007199254740993 < 54 := (Nat.log2_lt (by decide)).mpr (by decide)
  have h2 : ¬ Nat.log2 9007199254740993 < 53 :=
    fun h => absurd ((Nat.log2_lt (by decide)).mp h) (by decide)
  have h53 : Nat.log2 9007199254740993 = 53 := by omega
  unfold roundFloat64
  rw [h53]
  decide

/-- C15 (refuted as stated).  The line "a 9007199254740993" is read without
error; the numeric value of its frequency field is 9007199254740993, the
frequency of the token sent for it is 9007199254740992, the nearest
`float64`. -/
theorem c15_frequency_is_rounded :
    loadDictionary [oddFreqLine] none = ⟨[⟨"a".toList, 9007199254740992, []⟩], none⟩ ∧
      skipped oddFreqLine = false ∧
      latestFreq ([] ++ [oddFreqLine]) = 9007199254740993 := by
  refine ⟨?_, by decide, by decide⟩
  have hbody : loopBody zeroToken oddFreqLine =
      .emit ⟨"a".toList, 9007199254740992, []⟩ := by
    have h := loopBody_line_freq zeroToken "a".toList "9007199254740993".toList [] (by decide)
      (by intro c hc; cases hc; decide) (by decide) (by decide) (by decide) (Or.inl rfl)
    have hv : ParseFloat "9007199254740993".toList = .ok 9007199254740992 := by
      rw [ParseFloat_of_lt _ (by decide) (by decide) (by decide)]
      have hd : digitsValue "9007199254740993".toList = 9007199254740993 := by decide
      rw [hd, roundFloat64_odd]
    rw [hv] at h
    have hl : oddFreqLine = "a".toList ++ (SP :: "9007199254740993".toList ++ []) := by decide
    rw [hl, h]
    decide
  show scanLoop none zeroToken [oddFreqLine] = _
  rw [scanLoop_cons, hbody]
  rfl

/-- C15 (amended).  In a run without error, the token sent for a line that is
not skipped has the text parsed from that line, for frequency the `float64`
nearest to the numeric value of the frequency field of the latest line at or
before it that has one (0 if none has), and for tag the tag of the latest line
at or before it that has both a frequency field and a part-of-speech field
(empty if none has).  When the numeric value is itself a `float64`, the
frequency is that value. -/
theorem c15_carry_over (pre post : List Str) (scanErr : Option Str) (line : Str)
    (herr : (loadDictionary (pre ++ line :: post) scanErr).err = none)
    (hns : skipped line = false) :
    (loadDictionary (pre ++ line :: post) scanErr).tokens =
        (loadDictionary pre none).tokens ++
          ⟨textOf line, roundFloat64 (latestFreq (pre ++ [line])), latestPos (pre ++ [line])⟩ ::
          (scanLoop scanErr
            ⟨textOf line, roundFloat64 (latestFreq (pre ++ [line])),
              latestPos (pre ++ [line])⟩ post).tokens ∧
      (IsFloat64 (latestFreq (pre ++ [line])) →
        (loadDictionary (pre ++ line :: post) scanErr).tokens =
          (loadDictionary pre none).tokens ++
            ⟨textOf line, latestFreq (pre ++ [line]), latestPos (pre ++ [line])⟩ ::
            (scanLoop scanErr
              ⟨textOf line, latestFreq (pre ++ [line]), latestPos (pre ++ [line])⟩
              post).tokens) := by
  have hpre : (scanLoop none zeroToken pre).err = none :=
    scanLoop_err_prefix scanErr zeroToken pre (line :: post) herr
  have hcarry := stateAfter_carry zeroToken pre hpre
  have hrun := scanLoop_append scanErr zeroToken pre (line :: post) hpre
  have herr2 : (scanLoop scanErr (stateAfter zeroToken pre) (line :: post)).err = none := by
    have : (scanLoop scanErr zeroToken (pre ++ line :: post)).err = none := herr
    rw [hrun] at this
    exact this
  rw [scanLoop_cons] at herr2
  have hmain : (loadDictionary (pre ++ line :: post) scanErr).tokens =
      (loadDictionary pre none).tokens ++
        ⟨textOf line, roundFloat64 (latestFreq (pre ++ [line])), latestPos (pre ++ [line])⟩ ::
        (scanLoop scanErr
          ⟨textOf line, roundFloat64 (latestFreq (pre ++ [line])),
            latestPos (pre ++ [line])⟩ post).tokens := by
    rcases loopBody_spec (stateAfter zeroToken pre) line with
      ⟨hs, -⟩ | ⟨-, ⟨t, hb, -⟩ | ⟨e, hb⟩⟩
    · rw [hs] at hns; cases hns
    · have ht := loopBody_emit_eq _ line t hb
      have htok : t = ⟨textOf line, roundFloat64 (latestFreq (pre ++ [line])),
          latestPos (pre ++ [line])⟩ := by
        rw [ht, hcarry.1, hcarry.2]
        simp only [latestFreq, latestPos, List.reverse_append, List.reverse_cons,
          List.reverse_nil, List.nil_append, List.singleton_append, List.find?_cons]
        by_cases hfq : hasFreq line = true
        · by_cases hpq : hasPos line = true
          · simp [hfq, hpq, zeroToken, storedFreq]
          · simp [hfq, hpq, zeroToken, storedFreq]
        · cases hfind : pre.reverse.find? hasFreq with
          | none => simp [hfq, hfind, zeroToken, roundFloat64_zero]
          | some l => simp [hfq, hfind, zeroToken, storedFreq]
      subst htok
      show (scanLoop scanErr zeroToken (pre ++ line :: post)).tokens = _
      rw [hrun, scanLoop_cons, hb]
      rfl
    · rw [hb] at herr2
      cases herr2
  refine ⟨hmain, ?_⟩
  intro hrep
  rw [hmain, hrep.round_eq]

/-- C15 (amended) at "cherry" after "apple 120 n" and "banana 50": the latest
frequency value is 50, a `float64`, and the token is (cherry, 50, n). -/
theorem c15_carry_over_witness :
    latestFreq (["apple 120 n".toList, "banana 50".toList] ++ ["cherry".toList]) = 50 ∧
      (loadDictionary ["apple 120 n".toList, "banana 50".toList, "cherry".toList] none).tokens =
        (loadDictionary ["apple 120 n".toList, "banana 50".toList] none).tokens ++
          [⟨"cherry".toList, 50, "n".toList⟩] :=
  ⟨by decide,
    (c15_carry_over ["apple 120 n".toList, "banana 50".toList] [] none "cherry".toList
      (by decide) (by decide)).2 ⟨50, 0, by decide, by decide, by decide⟩⟩

/-! ## C12: failures before the parser starts -/

/-- C12.  When `dictPath` returns an error, and when the path is resolved but
the file cannot be opened, `LoadDictionary` returns that error and has invoked
neither `Load` nor `AddToken` of the `DictLoader`: no token is delivered. -/
theorem c12_failures_leave_consumer_alone (fp : PathLib) (env : Env) (fileName : Str) :
    (∀ err, (dictPath fp env.getwd fileName).2 = some err →
        LoadDictionary fp env fileName = ⟨some err, []⟩) ∧
      (∀ err, (dictPath fp env.getwd fileName).2 = none →
        env.osOpen (dictPath fp env.getwd fileName).1 = .error err →
        LoadDictionary fp env fileName = ⟨some err, []⟩) := by
  constructor
  · intro err h
    unfold LoadDictionary
    cases hd : dictPath fp env.getwd fileName with
    | mk path e =>
      rw [hd] at h
      simp only at h
      subst h
      rfl
  · intro err h hopen
    unfold LoadDictionary
    cases hd : dictPath fp env.getwd fileName with
    | mk path e =>
      rw [hd] at h hopen
      simp only at h hopen
      subst h
      simp only [hopen]

/-- C12 on Unix paths: a relative name where there is no working directory,
and an absolute name where no file can be opened. -/
theorem c12_failures_leave_consumer_alone_witness :
    LoadDictionary unixPath envNoCwd "dict.txt".toList =
        ⟨some "getwd: no such file or directory".toList, []⟩ ∧
      LoadDictionary unixPath envNoFile "/dict.txt".toList =
        ⟨some "open: no such file or directory".toList, []⟩ :=
  ⟨(c12_failures_leave_consumer_alone unixPath envNoCwd "dict.txt".toList).1 _ (by decide),
    (c12_failures_leave_consumer_alone unixPath envNoFile "/dict.txt".toList).2 _
      (by decide) rfl⟩

/-! ## C13: how a name becomes a path -/

/-- C13.  For a name that `filepath.IsAbs` accepts, `dictPath` returns the
name itself and no error, whatever `os.Getwd` would answer; for a name it
rejects, with the working directory `cwd`, `dictPath` returns
`Clean(Join(cwd, name))` and no error. -/
theorem c13_dictPath (fp : PathLib) (name : Str) :
    (fp.IsAbs name = true → ∀ getwd, dictPath fp getwd name = (name, none)) ∧
      (fp.IsAbs name = false →
        ∀ cwd, dictPath fp (.ok cwd) name = (fp.Clean (fp.Join cwd name), none)) := by
  constructor
  · intro h getwd
    simp [dictPath, h]
  · intro h cwd
    simp [dictPath, h]

/-- C13 on Unix paths: the absolute name "/a//b/../c" comes back as it is,
though `Clean` would turn it into "/a/c", and without a working directory; the
relative name "dict/../d.txt" under "/home/u" becomes "/home/u/d.txt". -/
theorem c13_dictPath_witness :
    dictPath unixPath (.error "getwd: no such file or directory".toList) "/a//b/../c".toList =
        ("/a//b/../c".toList, none) ∧
      unixPath.Clean "/a//b/../c".toList = "/a/c".toList ∧
      dictPath unixPath (.ok "/home/u".toList) "dict/../d.txt".toList =
        ("/home/u/d.txt".toList, none) :=
  ⟨(c13_dictPath unixPath "/a//b/../c".toList).1 (by decide) _, by decide,
    (c13_dictPath unixPath "dict/../d.txt".toList).2 (by decide) _⟩

/-! ## C3, amended: the lines without a frequency field -/

/-- What `TrimSpace` returns does not end with white space. -/
theorem TrimSpace_last (s : Str) (c : Char) (h : (TrimSpace s).getLast? = some c) :
    isSpace c = false := by
  unfold TrimSpace at h
  have hne : (s.dropWhile isSpace).rdropWhile isSpace ≠ [] := by
    intro h0
    rw [h0] at h
    cases h
  have hl := List.rdropWhile_last_not isSpace (s.dropWhile isSpace) hne
  rw [List.getLast?_eq_getLast _ hne] at h
  simp only [Option.some.injEq] at h
  rw [h] at hl
  simpa using hl

theorem TrimSpace_idem (s : Str) : TrimSpace (TrimSpace s) = TrimSpace s :=
  TrimSpace_eq_self (TrimSpace_head s) (TrimSpace_last s)

/-- C3 (amended).  Take a line that is not skipped and has no frequency field.
The loop assigns the text and nothing else, so a trailing word is never stored
as the tag, and the token the loader sends for the line has the text parsed
from it.  If the tag group did not match either, that text is the entire
trimmed line with its first byte-order-mark removed, hence the entire trimmed
line when the line holds no byte-order-mark.  If the tag group matched, the
trimmed line is some `t`, a space and a lowercase run, and the text is `t`
(byte-order-mark removed, trimmed), the line without its trailing word; this
is the case whenever the trimmed line is a non-empty `t` without line feed, a
space and a lowercase run. -/
theorem c3_no_frequency_line (pre post : List Str) (scanErr : Option Str) (line : Str)
    (hpre : (loadDictionary pre none).err = none) (hns : skipped line = false)
    (hnf : hasFreq line = false) :
    (∀ st : Token, loopBody st line = .emit { st with text := textOf line }) ∧
      (∃ tok, tok.text = textOf line ∧
        (loadDictionary (pre ++ line :: post) scanErr).tokens =
          (loadDictionary pre none).tokens ++ tok :: (scanLoop scanErr tok post).tokens) ∧
      (hasPos line = false →
        textOf line = TrimSpace (ReplaceBOM (TrimSpace line)) ∧
          (BOM ∉ line → textOf line = TrimSpace line)) ∧
      (hasPos line = true →
        ∃ t w, w ≠ [] ∧ (∀ c ∈ w, isLower c = true) ∧ TrimSpace line = t ++ SP :: w ∧
          textOf line = TrimSpace (ReplaceBOM t)) ∧
      (∀ t w, TrimSpace line = t ++ SP :: w → t ≠ [] → (∀ c ∈ t, isDot c = true) →
        w ≠ [] → (∀ c ∈ w, isLower c = true) →
        hasPos line = true ∧ textOf line = TrimSpace (ReplaceBOM t)) := by
  rcases dict_reg_inv (TrimSpace line) with h0 | ⟨g1, g2, g3, h0, -, hsplit, hg2, hg3, -⟩
  · exfalso
    simp [skipped, h0] at hns
  · have hf := fieldsOf_eq line _ g1 g2 g3 h0
    have hg2nil : g2 = [] := by
      simpa [hasFreq, hf] using hnf
    subst hg2nil
    have htext : textOf line = TrimSpace (ReplaceBOM g1) := by simp [textOf, hf]
    have hbody : ∀ st : Token, loopBody st line = .emit { st with text := textOf line } := by
      intro st
      rw [htext]
      exact loopBody_no_freq st line _ g1 g3 h0
    refine ⟨hbody, ⟨_, rfl, loadDictionary_emit_at pre post scanErr _ _ hpre (hbody _)⟩,
      ?_, ?_, ?_⟩
    · intro hnp
      have hg3nil : g3 = [] := by
        simpa [hasPos, hf] using hnp
      subst hg3nil
      have hg1 : g1 = TrimSpace line := by
        simpa using hsplit.symm
      refine ⟨by rw [htext, hg1], ?_⟩
      intro hbom
      have hb2 : BOM ∉ TrimSpace line := fun h => hbom (mem_of_mem_TrimSpace h)
      rw [htext, hg1, ReplaceBOM_of_not_mem hb2, TrimSpace_idem]
    · intro hp
      rcases hg3 with rfl | ⟨w, hw, hlow, rfl⟩
      · simp [hasPos, hf] at hp
      · exact ⟨g1, w, hw, hlow, by simpa using hsplit, htext⟩
    · intro t w hshape ht hdot hw hlow
      by_cases hfield : ∃ u d, u ≠ [] ∧ d ≠ [] ∧ (∀ c ∈ d, isDigit c = true) ∧ t = u ++ SP :: d
      · exfalso
        obtain ⟨u, d, hu, hd, hdig, rfl⟩ := hfield
        have hreg := dict_reg_freq u d (SP :: w) hu
          (fun c hc => hdot c (List.mem_append_left _ hc)) hd hdig (IsField.mk hw hlow)
        have hs2 : TrimSpace line = u ++ (SP :: d ++ SP :: w) := by
          rw [hshape]; simp
        rw [← hs2, h0] at hreg
        simp only [List.cons.injEq, and_true] at hreg
        exact absurd hreg.2.2.1 (by simp)
      · have hreg := dict_reg_tag_only t w ht hdot hw hlow
          (fun u d hu hd hdig hx => hfield ⟨u, d, hu, hd, hdig, hx⟩)
        rw [← hshape, h0] at hreg
        simp only [List.cons.injEq, and_true, true_and] at hreg
        obtain ⟨hg1, hg3'⟩ := hreg
        subst hg1
        exact ⟨by simp [hasPos, hf, hg3'], htext⟩

/-- C3 (amended) at "apple n" after "pear 7 v", where the tag group matches and
the text is "apple", and at "apple", where it does not and the text is the
entire trimmed line. -/
theorem c3_no_frequency_line_witness :
    ((∀ st : Token,
          loopBody st "apple n".toList = .emit { st with text := "apple".toList }) ∧
        hasPos "apple n".toList = true ∧ textOf "apple n".toList = "apple".toList) ∧
      ((∀ st : Token,
          loopBody st "apple".toList = .emit { st with text := "apple".toList }) ∧
        hasPos "apple".toList = false ∧ textOf "apple".toList = TrimSpace "apple".toList) :=
  have h1 := c3_no_frequency_line ["pear 7 v".toList] [] none "apple n".toList
    (by decide) (by decide) (by decide)
  have h2 := c3_no_frequency_line [] [] none "apple".toList (by decide) (by decide) (by decide)
  ⟨⟨h1.1,
      (h1.2.2.2.2 "apple".toList "n".toList (by decide) (by decide) (by decide) (by decide)
        (by decide)).1,
      (h1.2.2.2.2 "apple".toList "n".toList (by decide) (by decide) (by decide) (by decide)
        (by decide)).2⟩,
    ⟨h2.1, by decide, (h2.2.2.1 (by decide)).2 (by decide)⟩⟩

end Dictionary
